import Mathlib

/-!
# crc-kit: bit-serial CRC engine and table generators

A shallow embedding of `src/main.c` (functions `crc_iter_sub48`, `crc_iter`,
`count_bits`, `byteswap64`, `crc_gentable_sameendian`, `crc_gentable_diffendian`)
together with theorems about it.

Conventions of the embedding.

* `uint64_t` values are natural numbers; every operation that can leave the
  64-bit range is followed by an explicit `% 2 ^ 64`.
* `uint8_t` message bytes are `Fin 256`.
* An expression whose operands are promoted to `int` (a 32-bit signed integer)
  is evaluated by `int_shl`, which has no value (`none`) where C leaves the shift
  undefined. A failed `assert` and a read past the end of the message are `none`
  as well.
* `wide_preload_with` and `crc_iter_wide_with` are the wide path with the value
  of the preload shift as a parameter; with `int_shl` they are `wide_preload` and
  `crc_iter_wide`. What is proved for every `shift` holds for whatever value a
  build computes where C leaves the shift undefined.
* The two `do ... while` loops of the table generators are run with fuel; the
  theorems show how much fuel is enough.
-/

namespace CrcKit

/-! ## Machine arithmetic -/

/-- A message byte (`uint8_t`). -/
abbrev Byte := Fin 256

/-- Unary minus on `uint64_t`. -/
def neg64 (x : Nat) : Nat := (2 ^ 64 - x % 2 ^ 64) % 2 ^ 64

/-- Left shift on `uint64_t`: bits shifted past bit 63 are lost. -/
def shl64 (x n : Nat) : Nat := (x <<< n) % 2 ^ 64

/-- Left shift `a << s` of a non-negative `int` (32 bits): C defines it only when
`s < 32` and `a * 2 ^ s` is representable, that is below `2 ^ 31`. -/
def int_shl (a s : Nat) : Option Nat :=
  if s < 32 ∧ a * 2 ^ s < 2 ^ 31 then some (a * 2 ^ s) else none

/-! ## `crc_iter_sub48` (lines 39-57) -/

/-- One division step of the narrow path (lines 46-48 and 52-54). `poly` is the
polynomial already shifted left by 8. The shift count `poly_bits - 1 + 8` is
computed on `int`, so it is `7` for `poly_bits = 0`; it is written `poly_bits + 8 - 1`
to have that value on natural numbers too. -/
def sub48_step (poly poly_bits rem : Nat) : Nat :=
  let masked := neg64 (rem >>> (poly_bits + 8 - 1)) &&& poly
  let rem := shl64 rem 1
  rem ^^^ masked

/-- The body of the loop over the message (lines 44-49): or the byte into the
register, then eight division steps. -/
def sub48_byte (poly poly_bits rem : Nat) (b : Byte) : Nat :=
  (sub48_step poly poly_bits)^[8] (rem ||| b.val)

/-- The register of `crc_iter_sub48` after the message loop and the eight flush
steps (lines 41-55), before the final shift. -/
def sub48_register (message : List Byte) (poly poly_bits : Nat) : Nat :=
  let poly := shl64 poly 8
  let rem := message.foldl (sub48_byte poly poly_bits) 0
  (sub48_step poly poly_bits)^[8] rem

/-- The function `crc_iter_sub48`. The `assert` of line 40 fails for
`poly_bits > 48`; the return type is `uint8_t`, so `rem >> 8` is reduced
modulo `2 ^ 8`. -/
def crc_iter_sub48 (message : List Byte) (poly poly_bits : Nat) : Option Nat :=
  if poly_bits ≤ 48 then
    some ((sub48_register message poly poly_bits >>> 8) % 2 ^ 8)
  else none

/-! ## `crc_iter` (lines 60-82) -/

/-- The preload loop (lines 66-68). `message[i]` is promoted to `int` before the
shift, so the shift is an `int` shift; its count `(poly_bits & 0xF8) - (i + 1) * 8`
does not wrap because `i < poly_bits / 8`. -/
def wide_preload (message : List Byte) (poly_bits : Nat) : Option Nat :=
  (List.range (poly_bits / 8)).foldlM
    (fun rem i =>
      match message.get? i with
      | none => none
      | some b =>
        match int_shl b.val ((poly_bits &&& 0xF8) - (i + 1) * 8) with
        | none => none
        | some v => some (rem ||| v))
    0

/-- One step of the bit loop of the wide path (lines 71-73); `bit` is the next
message bit. -/
def wide_step (poly poly_bits rem bit : Nat) : Nat :=
  let masked := poly &&& neg64 (rem >>> (poly_bits - 1))
  let rem := shl64 rem 1 ||| bit
  rem ^^^ masked

/-- The eight steps for one message byte (lines 70-74), most significant bit first. -/
def wide_byte (poly poly_bits rem : Nat) (b : Byte) : Nat :=
  (List.range 8).foldl
    (fun rem j => wide_step poly poly_bits rem ((b.val >>> (7 - j)) &&& 1)) rem

/-- One flush step of the wide path (lines 77-79). -/
def wide_flush_step (poly poly_bits rem : Nat) : Nat :=
  let masked := poly &&& neg64 (rem >>> (poly_bits - 1))
  let rem := shl64 rem 1
  rem ^^^ masked

/-- The wide path: the body of `crc_iter` after the width dispatch (lines 63-81). -/
def crc_iter_wide (message : List Byte) (poly poly_bits : Nat) : Option Nat :=
  if poly_bits > 1 then
    match wide_preload message poly_bits with
    | none => none
    | some rem =>
      let rem := (message.drop (poly_bits / 8)).foldl (wide_byte poly poly_bits) rem
      some ((wide_flush_step poly poly_bits)^[poly_bits] rem)
  else none

/-- The function `crc_iter`: the narrow path for `poly_bits <= 48` (its `uint8_t`
result converted to `uint64_t`), the wide path otherwise. -/
def crc_iter (message : List Byte) (poly poly_bits : Nat) : Option Nat :=
  if poly_bits ≤ 48 then crc_iter_sub48 message poly poly_bits
  else crc_iter_wide message poly poly_bits

/-! ## `count_bits` (lines 84-88) -/

/-- The loop of `count_bits`: `bits` is a `uint8_t` counter. -/
def count_bits_loop (number bits : Nat) : Nat :=
  if 0 < number then count_bits_loop (number >>> 1) ((bits + 1) % 2 ^ 8) else bits
termination_by number
decreasing_by
  simp only [Nat.shiftRight_eq_div_pow, pow_one]
  omega

/-- The function `count_bits`. -/
def count_bits (number : Nat) : Nat := count_bits_loop number 0

/-! ## Table generators (lines 106-137) -/

/-- Addition on `uint64_t`. -/
def add64 (x y : Nat) : Nat := (x + y) % 2 ^ 64

/-- Subtraction on `uint64_t`, for `x, y < 2 ^ 64`: the difference when there is
no borrow, and `x + 2 ^ 64 - y` when the subtraction wraps. -/
def sub64 (x y : Nat) : Nat := if y ≤ x then x - y else (x + 2 ^ 64 - y) % 2 ^ 64

/-- The `MIN` of line 36. -/
def MIN (x y : Nat) : Nat := if x < y then x else y

/-- The `byteswap64` of lines 106-108, applied to a `uint64_t`, with the masks
the source writes. -/
def byteswap64 (num : Nat) : Nat :=
  (num >>> 56) ||| ((num >>> 40) &&& 0xFF00) ||| ((num >>> 24) &&& 0xFF0000) |||
    ((num >>> 8) &&& 0xFF0000) |||
    shl64 (num &&& 0xFF) 56 ||| shl64 (num &&& 0xFF0000) 40 |||
    shl64 (num &&& 0xFF0000) 24 ||| shl64 (num &&& 0xFF0000) 8

/-- The bytes of a `uint64_t` from the least significant one. -/
def le_bytes (n : Nat) : List Byte :=
  (List.range 8).map fun k => ⟨(n >>> (8 * k)) % 256, Nat.mod_lt _ (by decide)⟩

/-- The eight bytes read through `(uint8_t*)&num`: the object representation of a
`uint64_t` on the host, little-endian or big-endian. -/
def native_bytes (big_endian : Bool) (n : Nat) : List Byte :=
  if big_endian then (le_bytes n).reverse else le_bytes n

/-- The bound `(1 << (table_bits & 63)) - 1 - (table_bits > 63)` of lines 111 and
125: the shift and the subtractions are on `int`, the result is converted to
`uint64_t`. -/
def table_end (table_bits : Nat) : Option Nat :=
  match int_shl 1 (table_bits &&& 63) with
  | none => none
  | some p => some (((p : Int) - 1 - (if table_bits > 63 then 1 else 0)) % 2 ^ 64).toNat

/-- The row bound `MIN(end - columns + 1, (num + 1)) + columns - 1` of lines 115
and 129. -/
def row_max (e columns num : Nat) : Nat :=
  sub64 (add64 (MIN (add64 (sub64 e columns) 1) (add64 num 1)) columns) 1

/-- The inner `do ... while (num < max)` of lines 116-119 and 130-134: the row it
emits and the final value of `num`. `emit num` is what the body prints. -/
def row_loop {α : Type} (emit : Nat → α) (max : Nat) : Nat → Nat → Option (List α × Nat)
  | 0, _ => none
  | fuel + 1, num =>
    let num := add64 num 1
    if num < max then
      match row_loop emit max fuel num with
      | none => none
      | some (row, last) => some (emit num :: row, last)
    else some ([emit num], num)

/-- The outer `do ... while (num < end)` of lines 114-121 and 128-136: the rows
it emits. -/
def table_loop {α : Type} (emit : Nat → α) (e columns : Nat) :
    Nat → Nat → Option (List (List α))
  | 0, _ => none
  | fuel + 1, num =>
    match row_loop emit (row_max e columns num) (fuel + 1) num with
    | none => none
    | some (row, num) =>
      if num < e then
        match table_loop emit e columns fuel num with
        | none => none
        | some rows => some (row :: rows)
      else some [row]

/-- The function `crc_gentable_sameendian`, run with `fuel`: the rows of printed
values. -/
def crc_gentable_sameendian (fuel : Nat) (big_endian : Bool)
    (poly poly_bits table_bits columns : Nat) : Option (List (List (Option Nat))) :=
  match table_end table_bits with
  | none => none
  | some e =>
    table_loop (fun num => crc_iter (native_bytes big_endian num) poly poly_bits)
      e (MIN columns e) fuel (2 ^ 64 - 1)

/-- The function `crc_gentable_diffendian`, run with `fuel`. -/
def crc_gentable_diffendian (fuel : Nat) (big_endian : Bool)
    (poly poly_bits table_bits columns : Nat) : Option (List (List (Option Nat))) :=
  match table_end table_bits with
  | none => none
  | some e =>
    table_loop
      (fun num => crc_iter (native_bytes big_endian (byteswap64 num)) poly poly_bits)
      e (MIN columns e) fuel (2 ^ 64 - 1)

/-! ## The CRC of the specification -/

/-- Long division over GF(2): the remainder of the bit vector `a`, of degree below
`d + n`, by the polynomial `g` of degree `d`. Bit `i` of a number is the
coefficient of `x ^ i`; the quotient bits `n - 1, ..., 0` are decided in turn. -/
def gf2_rem (g d : Nat) : Nat → Nat → Nat
  | 0, a => a
  | i + 1, a => gf2_rem g d i (if a.testBit (d + i) then a ^^^ (g <<< i) else a)

/-- The message as a polynomial over GF(2), read most significant bit first. -/
def message_poly (message : List Byte) : Nat :=
  message.foldl (fun acc b => acc * 256 + b.val) 0

/-- The CRC as the specification words it: the remainder of `M(x) * x ^ w`
divided by the generator `g` of degree `w` over GF(2), `M(x)` being the message
of `8 * length` bits. -/
def spec_crc (message : List Byte) (g w : Nat) : Nat :=
  gf2_rem g w (8 * message.length) (message_poly message <<< w)

/-! ## `crc_gentable_8` (lines 139-151) -/

/-- The byte a `uint8_t` holds. -/
def byte_of (n : Nat) : Byte := ⟨n % 256, Nat.mod_lt _ (by decide)⟩

/-- The bound `(1 << (table_bits & 7)) - 1 - (table_bits > 7)` of line 140: computed
on `int` (the shift count is at most 7) and converted to `uint8_t`. -/
def table_end8 (table_bits : Nat) : Option Nat :=
  match int_shl 1 (table_bits &&& 7) with
  | none => none
  | some p => some (((p : Int) - 1 - (if table_bits > 7 then 1 else 0)) % 2 ^ 8).toNat

/-- The row bound of line 144,
`MIN((uint8_t)(end - columns + 1), (uint8_t)(num + 1)) + columns - 1`: the
differences and sums with `columns` are on `size_t`, the two casts and the
assignment to `max` reduce modulo `2 ^ 8`. -/
def row_max8 (e columns num : Nat) : Nat :=
  sub64 (add64 (MIN (add64 (sub64 e columns) 1 % 2 ^ 8) ((num + 1) % 2 ^ 8)) columns) 1 % 2 ^ 8

/-- The inner `do ... while (num < max)` of lines 145-148, on a `uint8_t` counter. -/
def row_loop8 {α : Type} (emit : Nat → α) (max : Nat) : Nat → Nat → Option (List α × Nat)
  | 0, _ => none
  | fuel + 1, num =>
    let num := (num + 1) % 2 ^ 8
    if num < max then
      match row_loop8 emit max fuel num with
      | none => none
      | some (row, last) => some (emit num :: row, last)
    else some ([emit num], num)

/-- The outer `do ... while (num < end)` of lines 143-150. -/
def table_loop8 {α : Type} (emit : Nat → α) (e columns : Nat) :
    Nat → Nat → Option (List (List α))
  | 0, _ => none
  | fuel + 1, num =>
    match row_loop8 emit (row_max8 e columns num) (fuel + 1) num with
    | none => none
    | some (row, num) =>
      if num < e then
        match table_loop8 emit e columns fuel num with
        | none => none
        | some rows => some (row :: rows)
      else some [row]

/-- The function `crc_gentable_8`, run with `fuel`: the message of an entry is the
single byte `num`. -/
def crc_gentable_8 (fuel : Nat) (poly poly_bits table_bits columns : Nat) :
    Option (List (List (Option Nat))) :=
  match table_end8 table_bits with
  | none => none
  | some e =>
    table_loop8 (fun num => crc_iter [byte_of num] poly poly_bits)
      e (MIN columns e) fuel (2 ^ 8 - 1)

/-! ## The division steps the two paths reach -/

/-- The registers on which `n` successive steps `f` are run, starting from `rem`. -/
def states_before (f : Nat → Nat) : Nat → Nat → List Nat
  | 0, _ => []
  | n + 1, rem => rem :: states_before f n (f rem)

/-- The registers on which `crc_iter_sub48` runs a division step, in order: for
each message byte the register with the byte or-ed in and the seven that follow,
then the eight of the flush. -/
def sub48_states (message : List Byte) (poly poly_bits : Nat) : List Nat :=
  let poly := shl64 poly 8
  let run := message.foldl
    (fun (acc : Nat × List Nat) b =>
      (sub48_byte poly poly_bits acc.1 b,
        acc.2 ++ states_before (sub48_step poly poly_bits) 8 (acc.1 ||| b.val)))
    (0, [])
  run.2 ++ states_before (sub48_step poly poly_bits) 8 run.1

/-- The registers on which the bit loop of the wide path runs a step for one byte. -/
def wide_byte_states (poly poly_bits rem : Nat) (b : Byte) : List Nat :=
  (List.range 8).map fun j =>
    (List.range j).foldl
      (fun rem i => wide_step poly poly_bits rem ((b.val >>> (7 - i)) &&& 1)) rem

/-- The registers on which the wide path runs a step, in order, where the preload
has a value. -/
def wide_states (message : List Byte) (poly poly_bits : Nat) : Option (List Nat) :=
  if poly_bits > 1 then
    match wide_preload message poly_bits with
    | none => none
    | some rem =>
      let run := (message.drop (poly_bits / 8)).foldl
        (fun (acc : Nat × List Nat) b =>
          (wide_byte poly poly_bits acc.1 b, acc.2 ++ wide_byte_states poly poly_bits acc.1 b))
        (rem, [])
      some (run.2 ++ states_before (wide_flush_step poly poly_bits) poly_bits run.1)
  else none

/-! ## Variants the specification compares the code with -/

/-- The narrow step with a conditional exclusive-or in place of the mask: the
polynomial is xor-ed in only if bit `poly_bits + 7` of the register is set. -/
def sub48_step_cond (poly poly_bits rem : Nat) : Nat :=
  if rem.testBit (poly_bits + 8 - 1) then shl64 rem 1 ^^^ poly else shl64 rem 1

/-- The narrow path with the conditional step. -/
def crc_iter_sub48_cond (message : List Byte) (poly poly_bits : Nat) : Option Nat :=
  if poly_bits ≤ 48 then
    let poly := shl64 poly 8
    let rem := message.foldl
      (fun rem b => (sub48_step_cond poly poly_bits)^[8] (rem ||| b.val)) 0
    some (((sub48_step_cond poly poly_bits)^[8] rem >>> 8) % 2 ^ 8)
  else none

/-- The wide step with a conditional exclusive-or in place of the mask: the
polynomial is xor-ed in only if bit `poly_bits - 1` of the register is set. -/
def wide_step_cond (poly poly_bits rem bit : Nat) : Nat :=
  if rem.testBit (poly_bits - 1) then (shl64 rem 1 ||| bit) ^^^ poly else shl64 rem 1 ||| bit

/-- The wide path with the conditional step, the preload unchanged. -/
def crc_iter_wide_cond (message : List Byte) (poly poly_bits : Nat) : Option Nat :=
  if poly_bits > 1 then
    match wide_preload message poly_bits with
    | none => none
    | some rem =>
      let rem := (message.drop (poly_bits / 8)).foldl
        (fun rem b => (List.range 8).foldl
          (fun rem j => wide_step_cond poly poly_bits rem ((b.val >>> (7 - j)) &&& 1)) rem)
        rem
      some ((fun rem => wide_step_cond poly poly_bits rem 0)^[poly_bits] rem)
  else none

/-- The naive wide path: no preload, the register starts at 0 and every message
bit, from the first byte on, goes through the masked step before the `poly_bits`
flush steps. -/
def crc_iter_naive (message : List Byte) (poly poly_bits : Nat) : Nat :=
  (wide_flush_step poly poly_bits)^[poly_bits] (message.foldl (wide_byte poly poly_bits) 0)

/-- The remainder of `M(x) * x ^ 8` divided by the generator `g` of degree `w` over
GF(2): the dividend has `8 * length + 8` bits. -/
def spec_rem8 (message : List Byte) (g w : Nat) : Nat :=
  gf2_rem g w (8 * message.length + 8) (message_poly message <<< 8)

/-- The exclusive-or of two bytes. -/
def byte_xor (x y : Byte) : Byte :=
  ⟨x.val ^^^ y.val, Nat.xor_lt_two_pow (n := 8) x.isLt y.isLt⟩

/-- The bytewise exclusive-or of two messages of equal length. -/
def message_xor (a b : List Byte) : List Byte := List.zipWith byte_xor a b

/-- The counter `num` as the integer it stands for: the initial `2 ^ 64 - 1` is the
`-1` of lines 113 and 127. -/
def counter_int (num : Nat) : Int := if num = 2 ^ 64 - 1 then -1 else (num : Int)

/-- The length of the last row of a table of `n` entries printed in rows of `c`. -/
def last_row_length (n c : Nat) : Nat := if n % c = 0 then c else n % c

/-! ## The wide path for any value of the preload shift -/

/-- The preload loop (lines 66-68) with the value that `message[i] << count` of
line 67 contributes to the register given by `shift`. With `int_shl`, the shift
as C defines it, this is `wide_preload`; where C leaves the shift undefined a
build computes some other value. -/
def wide_preload_with (shift : Nat → Nat → Option Nat) (message : List Byte)
    (poly_bits : Nat) : Option Nat :=
  (List.range (poly_bits / 8)).foldlM
    (fun rem i =>
      match message.get? i with
      | none => none
      | some b =>
        match shift b.val ((poly_bits &&& 0xF8) - (i + 1) * 8) with
        | none => none
        | some v => some (rem ||| v))
    0

/-- The body of `crc_iter` after the width dispatch (lines 63-81) over
`wide_preload_with`; with `int_shl` this is `crc_iter_wide`. -/
def crc_iter_wide_with (shift : Nat → Nat → Option Nat) (message : List Byte)
    (poly poly_bits : Nat) : Option Nat :=
  if poly_bits > 1 then
    match wide_preload_with shift message poly_bits with
    | none => none
    | some rem =>
      let rem := (message.drop (poly_bits / 8)).foldl (wide_byte poly poly_bits) rem
      some ((wide_flush_step poly poly_bits)^[poly_bits] rem)
  else none

/-! ## Test data -/

/-- The nine ASCII bytes of "123456789". -/
def check_message : List Byte := [0x31, 0x32, 0x33, 0x34, 0x35, 0x36, 0x37, 0x38, 0x39]

/-- The rows of indices of a table of 8 bits printed in 8 columns. -/
def index_rows_8_8 : List (List Nat) :=
  (List.range 32).map fun r => (List.range 8).map fun c => 8 * r + c

/-! ## Lemmas on the machine arithmetic -/

theorem neg64_zero : neg64 0 = 0 := by decide

theorem neg64_one : neg64 1 = 2 ^ 64 - 1 := by decide

theorem testBit_top {a k : Nat} (h1 : 2 ^ k ≤ a) (h2 : a < 2 ^ (k + 1)) :
    a.testBit k = true := by
  have ha : a = 2 ^ k + (a - 2 ^ k) := by omega
  rw [ha, Nat.testBit_two_pow_add_eq, Nat.testBit_lt_two_pow]
  · rfl
  · rw [pow_succ] at h2; omega

/-- Two numbers with the same leading bit cancel it. -/
theorem xor_top_lt {a b k : Nat} (ha1 : 2 ^ k ≤ a) (ha2 : a < 2 ^ (k + 1))
    (hb1 : 2 ^ k ≤ b) (hb2 : b < 2 ^ (k + 1)) : a ^^^ b < 2 ^ k := by
  apply Nat.lt_pow_two_of_testBit
  intro i hi
  rw [Nat.testBit_xor]
  rcases Nat.eq_or_lt_of_le hi with h | h
  · subst h
    rw [testBit_top ha1 ha2, testBit_top hb1 hb2]; rfl
  · have hle : 2 ^ (k + 1) ≤ 2 ^ i := Nat.pow_le_pow_right (by decide) h
    rw [Nat.testBit_lt_two_pow (lt_of_lt_of_le ha2 hle),
      Nat.testBit_lt_two_pow (lt_of_lt_of_le hb2 hle)]; rfl

theorem iterate_inv {α : Type} (I : α → Prop) (f : α → α) (hf : ∀ x, I x → I (f x)) :
    ∀ n x, I x → I (f^[n] x) := by
  intro n
  induction n with
  | zero => intro x hx; exact hx
  | succ n ih => intro x hx; exact ih (f x) (hf x hx)

/-! ## The narrow path -/

theorem sub48_step_zero (poly poly_bits : Nat) : sub48_step poly poly_bits 0 = 0 := by
  simp [sub48_step, neg64_zero, shl64]

theorem sub48_register_nil (poly poly_bits : Nat) : sub48_register [] poly poly_bits = 0 := by
  simp only [sub48_register, List.foldl_nil]
  exact Function.iterate_fixed (sub48_step_zero _ _) 8

/-- On a register below `2 ^ (w + 8)` the masked step of the narrow path is a
conditional exclusive-or with the shifted polynomial. -/
theorem sub48_step_eq {p w rem : Nat} (hw : w ≤ 48) (hp : p < 2 ^ 64)
    (hrem : rem < 2 ^ (w + 8)) :
    sub48_step p w rem = if 2 ^ (w + 7) ≤ rem then (2 * rem) ^^^ p else 2 * rem := by
  have h56 : 2 ^ (w + 8) ≤ 2 ^ 56 := Nat.pow_le_pow_right (by decide) (by omega)
  have hshl : shl64 rem 1 = 2 * rem := by
    simp only [shl64, Nat.shiftLeft_eq, pow_one]
    rw [Nat.mod_eq_of_lt] <;> omega
  have hsucc : 2 ^ (w + 8) = 2 * 2 ^ (w + 7) := by rw [← pow_succ']
  simp only [sub48_step, hshl, show w + 8 - 1 = w + 7 by omega, Nat.shiftRight_eq_div_pow]
  split
  · next hge =>
    have hdiv : rem / 2 ^ (w + 7) = 1 := by
      apply Nat.div_eq_of_lt_le <;> omega
    rw [hdiv, neg64_one, Nat.and_comm, Nat.and_pow_two_sub_one_of_lt_two_pow hp]
  · next hlt =>
    have hdiv : rem / 2 ^ (w + 7) = 0 := Nat.div_eq_of_lt (by omega)
    rw [hdiv, neg64_zero]; simp

/-- With the generator in full form the register of the narrow path stays below
`2 ^ (w + 8)` across a division step. -/
theorem sub48_step_lt {g w rem : Nat} (hw : w ≤ 48) (hg1 : 2 ^ w ≤ g) (hg2 : g < 2 ^ (w + 1))
    (hrem : rem < 2 ^ (w + 8)) : sub48_step (shl64 g 8) w rem < 2 ^ (w + 8) := by
  have h57 : 2 ^ (w + 9) ≤ 2 ^ 57 := Nat.pow_le_pow_right (by decide) (by omega)
  have e9 : 2 ^ (w + 9) = 2 ^ (w + 1) * 256 := by
    rw [show w + 9 = w + 1 + 8 by omega, pow_add]; rfl
  have e8 : 2 ^ (w + 8) = 2 ^ w * 256 := by rw [pow_add]; rfl
  have e8' : 2 ^ (w + 8) = 2 * 2 ^ (w + 7) := by rw [← pow_succ']
  have hP : shl64 g 8 = g * 256 := by
    simp only [shl64, Nat.shiftLeft_eq]
    rw [Nat.mod_eq_of_lt]; omega
  rw [sub48_step_eq hw (by rw [hP]; omega) hrem, hP]
  split
  · next hge =>
    exact xor_top_lt (by omega) (by rw [show w + 8 + 1 = w + 9 by omega]; omega) (by omega)
      (by rw [show w + 8 + 1 = w + 9 by omega]; omega)
  · omega

theorem sub48_register_lt {g w : Nat} (message : List Byte) (hw : w ≤ 48) (hg1 : 2 ^ w ≤ g)
    (hg2 : g < 2 ^ (w + 1)) : sub48_register message g w < 2 ^ (w + 8) := by
  have hstep := fun x (hx : x < 2 ^ (w + 8)) => sub48_step_lt hw hg1 hg2 hx
  have hfold : ∀ (l : List Byte) rem, rem < 2 ^ (w + 8) →
      l.foldl (sub48_byte (shl64 g 8) w) rem < 2 ^ (w + 8) := by
    intro l
    induction l with
    | nil => intro rem h; exact h
    | cons b l ih =>
      intro rem h
      apply ih
      apply iterate_inv (fun x => x < 2 ^ (w + 8)) _ hstep
      apply Nat.or_lt_two_pow h
      have : 2 ^ 8 ≤ 2 ^ (w + 8) := Nat.pow_le_pow_right (by decide) (by omega)
      have := b.isLt
      omega
  exact iterate_inv (fun x => x < 2 ^ (w + 8)) _ hstep 8 _ (hfold message 0 (by positivity))

/-! ## The wide path -/

/-- The first preload shift of a width from 40 to 64 has a count of at least 32
on an `int`, or reads an empty message: the preload has no defined value. -/
theorem wide_preload_undefined (message : List Byte) (w : Nat) (h1 : 40 ≤ w) (h2 : w ≤ 64) :
    wide_preload message w = none := by
  obtain ⟨n, hn⟩ : ∃ n, w / 8 = n + 1 := ⟨w / 8 - 1, by omega⟩
  have hshift : 32 ≤ (w &&& 0xF8) - (0 + 1) * 8 := by
    interval_cases w <;> decide
  rw [wide_preload, hn, List.range_succ_eq_map, List.foldlM_cons]
  cases hget : message.get? 0 with
  | none => rfl
  | some b =>
    have : int_shl b.val ((w &&& 0xF8) - (0 + 1) * 8) = none := by
      rw [int_shl, if_neg]; omega
    simp only [this]
    rfl

theorem crc_iter_wide_undefined (message : List Byte) (poly w : Nat) (h1 : 49 ≤ w)
    (h2 : w ≤ 64) : crc_iter message poly w = none := by
  rw [crc_iter, if_neg (by omega), crc_iter_wide, if_pos (by omega),
    wide_preload_undefined message w (by omega) h2]

/-! ## The bit counter -/

theorem count_bits_loop_spec (k : Nat) : ∀ n b, n < 2 ^ k → b + k < 256 →
    ∃ c, c ≤ k ∧ count_bits_loop n b = b + c ∧ n < 2 ^ c ∧ (n = 0 → c = 0) ∧
      (0 < n → 2 ^ (c - 1) ≤ n) := by
  induction k with
  | zero =>
    intro n b hn _
    have : n = 0 := by simpa using hn
    subst this
    refine ⟨0, le_refl _, ?_, by simp, by simp, by simp⟩
    rw [count_bits_loop]; simp
  | succ k ih =>
    intro n b hn hb
    rcases Nat.eq_zero_or_pos n with h0 | hpos
    · subst h0
      refine ⟨0, Nat.zero_le _, ?_, by simp, by simp, by simp⟩
      rw [count_bits_loop]; simp
    · have hhalf : n >>> 1 < 2 ^ k := by
        simp only [Nat.shiftRight_eq_div_pow, pow_one]
        rw [pow_succ] at hn
        omega
      obtain ⟨c, hck, hc, hlt, hz, hge⟩ := ih (n >>> 1) ((b + 1) % 2 ^ 8) hhalf (by omega)
      refine ⟨c + 1, by omega, ?_, ?_, by omega, ?_⟩
      · rw [count_bits_loop, if_pos hpos, hc]
        omega
      · simp only [Nat.shiftRight_eq_div_pow, pow_one] at hlt
        rw [pow_succ]; omega
      · intro _
        simp only [Nat.shiftRight_eq_div_pow, pow_one] at hz hge
        rcases Nat.eq_zero_or_pos (n / 2) with h2 | h2
        · have := hz h2; subst this; simp; omega
        · have := hge h2
          have hc1 : 1 ≤ c := by
            rcases Nat.eq_zero_or_pos c with hc0 | hc0
            · subst hc0; simp only [Nat.shiftRight_eq_div_pow, pow_one] at hlt; omega
            · exact hc0
          have : 2 ^ c = 2 * 2 ^ (c - 1) := by
            rw [← pow_succ']; congr 1; omega
          simp only [Nat.add_sub_cancel]
          omega

/-! ## The loops of the table generators -/

theorem row_loop_spec {α : Type} (emit : Nat → α) (max : Nat) (hmax : max < 2 ^ 64) :
    ∀ fuel num, add64 num 1 ≤ max → max - add64 num 1 < fuel →
      row_loop emit max fuel num =
        some ((List.range' (add64 num 1) (max - add64 num 1 + 1)).map emit, max) := by
  intro fuel
  induction fuel with
  | zero => intro num _ h; omega
  | succ fuel ih =>
    intro num hle hfuel
    rw [row_loop]
    split
    · next hlt =>
      have hnext : add64 (add64 num 1) 1 = add64 num 1 + 1 := by
        rw [add64, Nat.mod_eq_of_lt (show add64 num 1 + 1 < 2 ^ 64 by omega)]
      have := ih (add64 num 1) (by rw [hnext]; omega) (by rw [hnext]; omega)
      rw [this, hnext]
      have e : max - add64 num 1 + 1 = (max - (add64 num 1 + 1) + 1) + 1 := by omega
      simp only [e, List.range'_succ, List.map_cons]
    · next hge =>
      have hm : max - add64 num 1 = 0 := by omega
      have hm2 : add64 num 1 = max := by omega
      rw [hm, hm2]
      rfl

theorem row_max_eq {e columns c : Nat} (h1 : 1 ≤ columns) (h2 : columns ≤ e) (he : e < 2 ^ 64)
    (hc : c ≤ e) (num : Nat) (hnum : add64 num 1 = c) :
    row_max e columns num = if e - columns + 1 < c then e else c + columns - 1 := by
  simp only [row_max, hnum, MIN]
  simp only [add64, sub64]
  split_ifs <;> omega

theorem table_loop_spec {α : Type} (emit : Nat → α) (e columns : Nat) (h1 : 1 ≤ columns)
    (h2 : columns ≤ e) (he : e < 2 ^ 64) :
    ∀ fuel num, add64 num 1 ≤ e → e - add64 num 1 < fuel →
      ∃ rows, table_loop emit e columns fuel num = some rows ∧
        rows.flatten = (List.range' (add64 num 1) (e - add64 num 1 + 1)).map emit ∧
        ∀ row ∈ rows, 1 ≤ row.length ∧ row.length ≤ columns := by
  intro fuel
  induction fuel with
  | zero => intro num _ h; omega
  | succ fuel ih =>
    intro num hle hfuel
    have hmax := row_max_eq h1 h2 he hle num rfl
    have hmle : add64 num 1 ≤ row_max e columns num ∧ row_max e columns num ≤ e ∧
        row_max e columns num - add64 num 1 + 1 ≤ columns := by
      rw [hmax]; split <;> omega
    obtain ⟨hm1, hm2, hm3⟩ := hmle
    generalize hM : row_max e columns num = M at hm1 hm2 hm3
    generalize hC : add64 num 1 = c at hm1 hm3 hle hfuel
    have hrow := row_loop_spec emit M (by omega) (fuel + 1) num (by omega) (by omega)
    rw [hC] at hrow
    rw [table_loop, hM, hrow]
    by_cases hlt : M < e
    · have hnext : add64 M 1 = M + 1 := by
        rw [add64, Nat.mod_eq_of_lt (show M + 1 < 2 ^ 64 by omega)]
      obtain ⟨rows, hrows, hjoin, hlen⟩ :=
        ih M (by rw [hnext]; omega) (by rw [hnext]; omega)
      simp only [if_pos hlt, hrows]
      refine ⟨_, rfl, ?_, ?_⟩
      · rw [List.flatten_cons, hjoin, hnext, ← List.map_append]
        congr 1
        have e1 : M + 1 = c + (M - c + 1) := by omega
        have e2 : e - c + 1 = (e - (M + 1) + 1) + (M - c + 1) := by omega
        rw [e2, ← List.range'_append_1 c (M - c + 1) (e - (M + 1) + 1), ← e1]
      · intro row hrow
        rcases List.mem_cons.1 hrow with h | h
        · subst h
          simp only [List.length_map, List.length_range']
          omega
        · exact hlen row h
    · have hm : M = e := by omega
      simp only [if_neg hlt]
      refine ⟨_, rfl, ?_, ?_⟩
      · simp [hm]
      · intro row hrow
        simp only [List.mem_singleton] at hrow
        subst hrow
        simp only [List.length_map, List.length_range']
        omega

theorem row_loop_mono {α : Type} (emit : Nat → α) (max : Nat) :
    ∀ fuel num r, row_loop emit max fuel num = some r →
      row_loop emit max (fuel + 1) num = some r := by
  intro fuel
  induction fuel with
  | zero => intro num r h; simp [row_loop] at h
  | succ fuel ih =>
    intro num r h
    rw [row_loop] at h ⊢
    split
    · next hlt =>
      rw [if_pos hlt] at h
      cases hrec : row_loop emit max fuel (add64 num 1) with
      | none => simp [hrec] at h
      | some p =>
        rw [ih _ _ hrec]
        rw [hrec] at h
        exact h
    · next hge =>
      rw [if_neg hge] at h
      exact h

theorem table_loop_mono {α : Type} (emit : Nat → α) (e columns : Nat) :
    ∀ fuel num r, table_loop emit e columns fuel num = some r →
      table_loop emit e columns (fuel + 1) num = some r := by
  intro fuel
  induction fuel with
  | zero => intro num r h; simp [table_loop] at h
  | succ fuel ih =>
    intro num r h
    rw [table_loop] at h ⊢
    cases hrow : row_loop emit (row_max e columns num) (fuel + 1) num with
    | none => simp [hrow] at h
    | some p =>
      obtain ⟨row, last⟩ := p
      rw [row_loop_mono _ _ _ _ _ hrow]
      rw [hrow] at h
      simp only at h ⊢
      split
      · next hlt =>
        rw [if_pos hlt] at h
        cases hrec : table_loop emit e columns fuel last with
        | none => simp [hrec] at h
        | some rows =>
          rw [ih _ _ hrec]
          rw [hrec] at h
          exact h
      · next hge =>
        rw [if_neg hge] at h
        exact h

theorem table_loop_fuel {α : Type} (emit : Nat → α) (e columns num : Nat) {fuel : Nat}
    {r : List (List α)} (h : table_loop emit e columns fuel num = some r) :
    ∀ fuel2, fuel ≤ fuel2 → table_loop emit e columns fuel2 num = some r := by
  intro fuel2 hle
  induction hle with
  | refl => exact h
  | step _ ih => exact table_loop_mono _ _ _ _ _ _ ih

theorem row_loop_map {α : Type} (emit : Nat → α) (max : Nat) :
    ∀ fuel num, row_loop emit max fuel num =
      (row_loop id max fuel num).map fun p => (p.1.map emit, p.2) := by
  intro fuel
  induction fuel with
  | zero => intro num; rfl
  | succ fuel ih =>
    intro num
    rw [row_loop, row_loop]
    split
    · rw [ih]
      cases row_loop id max fuel (add64 num 1) with
      | none => rfl
      | some p => rfl
    · rfl

theorem table_loop_map {α : Type} (emit : Nat → α) (e columns : Nat) :
    ∀ fuel num, table_loop emit e columns fuel num =
      (table_loop id e columns fuel num).map (List.map (List.map emit)) := by
  intro fuel
  induction fuel with
  | zero => intro num; rfl
  | succ fuel ih =>
    intro num
    rw [table_loop, table_loop, row_loop_map emit]
    cases row_loop id (row_max e columns num) (fuel + 1) num with
    | none => rfl
    | some p =>
      obtain ⟨row, last⟩ := p
      simp only [Option.map_some']
      split
      · rw [ih]
        cases table_loop id e columns fuel last with
        | none => rfl
        | some rows => rfl
      · rfl

theorem table_end_values (table_bits : Nat) :
    (1 ≤ table_bits → table_bits ≤ 30 → table_end table_bits = some (2 ^ table_bits - 1)) ∧
    (31 ≤ table_bits → table_bits ≤ 63 → table_end table_bits = none) ∧
    table_end 64 = some (2 ^ 64 - 1) := by
  refine ⟨fun h1 h2 => ?_, fun h1 h2 => ?_, by decide⟩
  · interval_cases table_bits <;> decide
  · interval_cases table_bits <;> decide

/-- For every bound `e` from 1 to `2 ^ 64 - 1` and every requested `columns ≥ 1`
the two nested loops, started as the generators start them, stop and emit the
indices `0, 1, ..., e` in ascending order, each once, in rows of at most the
clamped number of columns. -/
theorem table_loop_enumerates {α : Type} (emit : Nat → α) (e columns fuel : Nat)
    (he1 : 1 ≤ e) (he : e < 2 ^ 64) (hc : 1 ≤ columns) (hfuel : e < fuel) :
    ∃ rows, table_loop emit e (MIN columns e) fuel (2 ^ 64 - 1) = some rows ∧
      rows.flatten = (List.range (e + 1)).map emit ∧
      ∀ row ∈ rows, 1 ≤ row.length ∧ row.length ≤ MIN columns e := by
  have hmin : 1 ≤ MIN columns e ∧ MIN columns e ≤ e := by
    unfold MIN; split <;> omega
  have hstart : add64 (2 ^ 64 - 1) 1 = 0 := by decide
  have h := table_loop_spec emit e (MIN columns e) hmin.1 hmin.2 he fuel (2 ^ 64 - 1)
    (by rw [hstart]; omega) (by rw [hstart]; omega)
  rw [hstart] at h
  rw [List.range_eq_range']
  exact h

/-- Where the bound is defined, for `table_bits` from 1 to 30 and for 64, both
generators stop and emit the entries of the indices `0, 1, ..., 2 ^ table_bits - 1`
in ascending order, each once. -/
theorem gentable_enumerates (fuel : Nat) (big_endian : Bool)
    (poly poly_bits table_bits columns : Nat)
    (htb : (1 ≤ table_bits ∧ table_bits ≤ 30) ∨ table_bits = 64) (hc : 1 ≤ columns)
    (hfuel : 2 ^ table_bits ≤ fuel) :
    (∃ rows, crc_gentable_sameendian fuel big_endian poly poly_bits table_bits columns
        = some rows ∧
      rows.flatten = (List.range (2 ^ table_bits)).map fun num =>
        crc_iter (native_bytes big_endian num) poly poly_bits) ∧
    (∃ rows, crc_gentable_diffendian fuel big_endian poly poly_bits table_bits columns
        = some rows ∧
      rows.flatten = (List.range (2 ^ table_bits)).map fun num =>
        crc_iter (native_bytes big_endian (byteswap64 num)) poly poly_bits) := by
  have hend : table_end table_bits = some (2 ^ table_bits - 1) := by
    rcases htb with ⟨h1, h2⟩ | h
    · exact (table_end_values table_bits).1 h1 h2
    · subst h; exact (table_end_values 64).2.2
  have hle : table_bits ≤ 64 := by omega
  have hpos : 1 ≤ table_bits := by omega
  have h64 : 2 ^ table_bits ≤ 2 ^ 64 := Nat.pow_le_pow_right (by decide) hle
  have h2 : 2 ^ 1 ≤ 2 ^ table_bits := Nat.pow_le_pow_right (by decide) hpos
  have hsucc : 2 ^ table_bits - 1 + 1 = 2 ^ table_bits := by omega
  constructor
  · obtain ⟨rows, hr, hflat, _⟩ := table_loop_enumerates
      (fun num => crc_iter (native_bytes big_endian num) poly poly_bits)
      (2 ^ table_bits - 1) columns fuel (by omega) (by omega) hc (by omega)
    rw [hsucc] at hflat
    exact ⟨rows, by simp only [crc_gentable_sameendian, hend, hr], hflat⟩
  · obtain ⟨rows, hr, hflat, _⟩ := table_loop_enumerates
      (fun num => crc_iter (native_bytes big_endian (byteswap64 num)) poly poly_bits)
      (2 ^ table_bits - 1) columns fuel (by omega) (by omega) hc (by omega)
    rw [hsucc] at hflat
    exact ⟨rows, by simp only [crc_gentable_diffendian, hend, hr], hflat⟩

theorem table_loop_8_8 : table_loop id 255 8 256 (2 ^ 64 - 1) = some index_rows_8_8 := by
  decide!

theorem index_rows_8_8_shape :
    index_rows_8_8.length = 32 ∧ (∀ row ∈ index_rows_8_8, row.length = 8) ∧
      index_rows_8_8.flatten = List.range 256 := by
  decide!

/-- On an index below 256 the `byteswap64` of the source reverses the eight bytes. -/
theorem byteswap64_low_byte :
    ∀ i, i < 256 → ∀ b : Bool, native_bytes b (byteswap64 i) = (native_bytes b i).reverse := by
  decide!

theorem table_8_8 {α : Type} (emit : Nat → α) (fuel : Nat) (hfuel : 256 ≤ fuel) :
    ∃ rows, table_loop emit 255 8 fuel (2 ^ 64 - 1) = some rows ∧ rows.length = 32 ∧
      (∀ row ∈ rows, row.length = 8) ∧ rows.flatten.length = 256 ∧
      ∀ i, i < 256 → rows.flatten[i]? = some (emit i) := by
  have h := table_loop_map emit 255 8 256 (2 ^ 64 - 1)
  rw [table_loop_8_8, Option.map_some'] at h
  obtain ⟨hlen, hrow, hflat⟩ := index_rows_8_8_shape
  have hfl : (List.map (List.map emit) index_rows_8_8).flatten = (List.range 256).map emit := by
    rw [← List.map_flatten, hflat]
  refine ⟨_, table_loop_fuel emit 255 8 _ h fuel hfuel, by simp [hlen], ?_, ?_, ?_⟩
  · intro row hmem
    obtain ⟨r, hr, rfl⟩ := List.mem_map.1 hmem
    simp [hrow r hr]
  · rw [hfl]; simp
  · intro i hi
    rw [hfl]
    simp [hi]

/-! ## The claims -/

/-- C1 (evaluation at the failing input). On "123456789" with the generator
`0x11021` of width 16 the narrow path returns `0x15`: the register shifted right by
8 is `0xA915`, the remainder of `M(x) * x ^ 8`, and the `uint8_t` return type keeps
its low 8 bits. The remainder of `M(x) * x ^ 16` by the generator is `0x31C3`. With
the generator `0x107` of width 8 the narrow path does return the remainder, `0xF4`. -/
theorem crc_iter_sub48_check_16 :
    crc_iter_sub48 check_message 0x11021 16 = some 0x15 ∧
      sub48_register check_message 0x11021 16 >>> 8 = 0xA915 ∧
      gf2_rem 0x11021 16 (8 * check_message.length) (message_poly check_message <<< 8)
        = 0xA915 ∧
      spec_crc check_message 0x11021 16 = 0x31C3 ∧
      crc_iter_sub48 check_message 0x107 8 = some 0xF4 ∧
      spec_crc check_message 0x107 8 = 0xF4 := by
  decide!

/-- C2 (evaluation at the failing input). For width 64 the preload of `crc_iter`
shifts the first message byte, promoted to `int`, by 56: the shift has no defined
value and neither has the call. The remainder of `M(x) * x ^ 64` by the CRC-64
generator is `0x6E4D3E593561EE88` for this message. -/
theorem crc_iter_wide_64_undefined :
    crc_iter [1, 0, 0, 0, 0, 0, 0, 0] 0x42F0E1EBA9EA3693 64 = none ∧
      int_shl 1 56 = none ∧
      spec_crc [1, 0, 0, 0, 0, 0, 0, 0] (2 ^ 64 + 0x42F0E1EBA9EA3693) 64
        = 0x6E4D3E593561EE88 := by
  decide!

/-- C3 (counterexample). `crc_iter` on "123456789" with `0x11021` and width 16
does not return `0x29B1`. -/
theorem crc16_check_not_29B1 : ¬ (crc_iter check_message 0x11021 16 = some 0x29B1) := by
  decide!

/-- C3 (amended). `crc_iter` on "123456789" with `0x11021` and width 16 returns
what the narrow path returns, a value below `2 ^ 16` other than `0x29B1`; the
remainder of `M(x) * x ^ 16` by `0x11021` from a zero register is `0x31C3`. -/
theorem crc16_check_narrow :
    crc_iter check_message 0x11021 16 = crc_iter_sub48 check_message 0x11021 16 ∧
      (∃ r, crc_iter check_message 0x11021 16 = some r ∧ r < 2 ^ 16 ∧ r ≠ 0x29B1) ∧
      spec_crc check_message 0x11021 16 = 0x31C3 := by
  refine ⟨rfl, ⟨0x15, ?_, by decide, by decide⟩, ?_⟩ <;> decide!

/-- C4 (counterexample). `crc_iter` on "123456789" with `0x104C11DB7` and width 32
does not return `0xCBF43926`. -/
theorem crc32_check_not_CBF43926 :
    ¬ (crc_iter check_message 0x104C11DB7 32 = some 0xCBF43926) := by
  decide!

/-- C4 (amended). `crc_iter` on "123456789" with `0x104C11DB7` and width 32
returns what the narrow path returns, a value below `2 ^ 32` other than
`0xCBF43926`; the remainder of `M(x) * x ^ 32` by `0x104C11DB7` from a zero
register, without reflection or final exclusive-or, is `0x89A1897F`. -/
theorem crc32_check_narrow :
    crc_iter check_message 0x104C11DB7 32 = crc_iter_sub48 check_message 0x104C11DB7 32 ∧
      (∃ r, crc_iter check_message 0x104C11DB7 32 = some r ∧ r < 2 ^ 32 ∧ r ≠ 0xCBF43926) ∧
      spec_crc check_message 0x104C11DB7 32 = 0x89A1897F := by
  refine ⟨rfl, ⟨0xFD, ?_, by decide, by decide⟩, ?_⟩ <;> decide!

/-- C5. The CRC of the empty message is zero: `crc_iter` on the empty message
with polynomial `0x07` and width 8 returns `0x00`, and for every polynomial value
and every width up to 48 (so for every width from 1 to 48) it returns 0. -/
theorem crc_iter_empty (poly w : Nat) (h48 : w ≤ 48) :
    crc_iter [] 0x07 8 = some 0x00 ∧ crc_iter [] poly w = some 0 := by
  have key : ∀ p v, v ≤ 48 → crc_iter [] p v = some 0 := by
    intro p v hv
    simp [crc_iter, crc_iter_sub48, hv, sub48_register_nil]
  exact ⟨key _ _ (by decide), key _ _ h48⟩

/-- C5 (witness): the CRC-16 generator in full form, width 16. -/
theorem crc_iter_empty_witness :
    16 ≤ 48 ∧ crc_iter [] 0x07 8 = some 0x00 ∧ crc_iter [] 0x11021 16 = some 0 :=
  ⟨by decide, crc_iter_empty 0x11021 16 (by decide)⟩

/-- C6 (evaluation at the failing input). On "123456789" with the generator
`0x11021` and width 16 the narrow path returns `0x15` and the wide path, run on
the same arguments, `0x31C3`. With the generator `0x107` and width 8 both return
`0xF4`. -/
theorem narrow_wide_differ_16 :
    crc_iter_sub48 check_message 0x11021 16 = some 0x15 ∧
      crc_iter_wide check_message 0x11021 16 = some 0x31C3 ∧
      crc_iter_sub48 check_message 0x107 8 = some 0xF4 ∧
      crc_iter_wide check_message 0x107 8 = some 0xF4 := by
  decide!

/-- C7 (counterexample). With width 1 and the polynomial value 1, which fits
within 1 bit, `crc_iter` on the byte `0xFF` returns 191, not below `2 ^ 1`; with
width 49, a polynomial value that fits and a message of 7 bytes it has no defined
value. -/
theorem crc_iter_truncated_poly_not_lt :
    (1 < 2 ^ 1 ∧ crc_iter [0xFF] 1 1 = some 191 ∧ ¬ 191 < 2 ^ 1) ∧
      (1 < 2 ^ 49 ∧ crc_iter [1, 2, 3, 4, 5, 6, 7] 1 49 = none) := by
  decide!

/-- C7 (amended). For every message, every width `w` up to 48 (so every width
from 1 to 48) and every polynomial in full form, bit `w` set and no higher bit,
`crc_iter` returns a value strictly below `2 ^ w`; so is the register shifted
right by 8, before the conversion to the return type. -/
theorem crc_iter_lt (message : List Byte) (g w : Nat) (hw : w ≤ 48)
    (hg1 : 2 ^ w ≤ g) (hg2 : g < 2 ^ (w + 1)) :
    (∃ r, crc_iter message g w = some r ∧ r < 2 ^ w) ∧
      sub48_register message g w >>> 8 < 2 ^ w := by
  have h := sub48_register_lt message hw hg1 hg2
  have hreg : sub48_register message g w >>> 8 < 2 ^ w := by
    rw [Nat.shiftRight_eq_div_pow, Nat.div_lt_iff_lt_mul (by positivity), ← pow_add]
    exact h
  refine ⟨⟨(sub48_register message g w >>> 8) % 2 ^ 8,
    by simp only [crc_iter, crc_iter_sub48, if_pos hw], ?_⟩, hreg⟩
  exact lt_of_le_of_lt (Nat.mod_le _ _) hreg

/-- C7 (witness): the byte `0xFF` with the generator `x + 1` in full form, width 1. -/
theorem crc_iter_lt_witness :
    (1 ≤ 48 ∧ 2 ^ 1 ≤ 3 ∧ 3 < 2 ^ (1 + 1)) ∧
      (∃ r, crc_iter [0xFF] 3 1 = some r ∧ r < 2 ^ 1) ∧
      sub48_register [0xFF] 3 1 >>> 8 < 2 ^ 1 :=
  ⟨by decide, crc_iter_lt [0xFF] 3 1 (by decide) (by decide) (by decide)⟩

/-- C8. `count_bits` is total and returns the number of bits needed to represent
its argument: 0 for 0, and for every 64-bit `n > 0` the unique `b` from 1 to 64
with `2 ^ (b - 1) ≤ n < 2 ^ b`; in particular it maps 1, 255, 256 and `2 ^ 64 - 1`
to 1, 8, 9 and 64. -/
theorem count_bits_spec (n : Nat) (hn : n < 2 ^ 64) :
    (n = 0 → count_bits n = 0) ∧
    (0 < n → 1 ≤ count_bits n ∧ count_bits n ≤ 64 ∧
      2 ^ (count_bits n - 1) ≤ n ∧ n < 2 ^ count_bits n ∧
      ∀ b, 1 ≤ b → 2 ^ (b - 1) ≤ n → n < 2 ^ b → b = count_bits n) ∧
    count_bits 0 = 0 ∧ count_bits 1 = 1 ∧ count_bits 255 = 8 ∧ count_bits 256 = 9 ∧
    count_bits (2 ^ 64 - 1) = 64 := by
  obtain ⟨c, hc64, hc, hlt, hz, hge⟩ := count_bits_loop_spec 64 n 0 hn (by decide)
  have hcb : count_bits n = c := by simp [count_bits, hc]
  refine ⟨fun h0 => by rw [hcb]; exact hz h0, fun hpos => ?_, ?_, ?_, ?_, ?_, ?_⟩
  · have hge := hge hpos
    have hc1 : 1 ≤ c := by
      rcases Nat.eq_zero_or_pos c with hc0 | hc0
      · subst hc0; simp at hlt; omega
      · exact hc0
    rw [hcb]
    refine ⟨hc1, hc64, hge, hlt, fun b hb1 hb2 hb3 => ?_⟩
    have h1 : b - 1 < c := (Nat.pow_lt_pow_iff_right (by decide)).1 (lt_of_le_of_lt hb2 hlt)
    have h2 : c - 1 < b := (Nat.pow_lt_pow_iff_right (by decide)).1 (lt_of_le_of_lt hge hb3)
    omega
  all_goals simp [count_bits, count_bits_loop]

/-- C8 (witness): the argument 256, of 9 bits. -/
theorem count_bits_spec_witness :
    256 < 2 ^ 64 ∧ 1 ≤ count_bits 256 ∧ count_bits 256 ≤ 64 ∧
      2 ^ (count_bits 256 - 1) ≤ 256 ∧ 256 < 2 ^ count_bits 256 ∧
      ∀ b, 1 ≤ b → 2 ^ (b - 1) ≤ 256 → 256 < 2 ^ b → b = count_bits 256 :=
  ⟨by decide, (count_bits_spec 256 (by decide)).2.1 (by decide)⟩

/-- C9 (evaluation at the failing input). For `table_bits = 32` the bound
`(1 << (table_bits & 63)) - 1 - (table_bits > 63)` shifts the `int` 1 by 32: it has
no defined value, and neither generator emits a table, whatever the fuel. Were the
bound 0, as when the shift count is taken modulo 32, 8 columns would be clamped to
0 and the first row bound would wrap to `2 ^ 64 - 1`. -/
theorem table_end_32_undefined :
    table_end 32 = none ∧
      (∀ fuel big_endian poly poly_bits columns,
        crc_gentable_sameendian fuel big_endian poly poly_bits 32 columns = none ∧
        crc_gentable_diffendian fuel big_endian poly poly_bits 32 columns = none) ∧
      row_max 0 (MIN 8 0) (2 ^ 64 - 1) = 2 ^ 64 - 1 := by
  have h : table_end 32 = none := by decide
  refine ⟨h, fun fuel big_endian poly poly_bits columns => ?_, by decide⟩
  simp [crc_gentable_sameendian, crc_gentable_diffendian, h]

/-- C10. For every polynomial and width, with `table_bits = 8` and `columns = 8`
both generators stop (256 units of fuel are enough) and emit exactly 32 rows of
exactly 8 entries, 256 in all; the entry at row-major position `i` is `crc_iter`
on the eight native bytes of `i` for `crc_gentable_sameendian`, and `crc_iter` on
those bytes in reverse order for `crc_gentable_diffendian`. -/
theorem gentable_8_8 (fuel : Nat) (big_endian : Bool) (poly poly_bits : Nat)
    (hfuel : 256 ≤ fuel) :
    (∃ rows, crc_gentable_sameendian fuel big_endian poly poly_bits 8 8 = some rows ∧
      rows.length = 32 ∧ (∀ row ∈ rows, row.length = 8) ∧ rows.flatten.length = 256 ∧
      ∀ i, i < 256 →
        rows.flatten[i]? = some (crc_iter (native_bytes big_endian i) poly poly_bits)) ∧
    (∃ rows, crc_gentable_diffendian fuel big_endian poly poly_bits 8 8 = some rows ∧
      rows.length = 32 ∧ (∀ row ∈ rows, row.length = 8) ∧ rows.flatten.length = 256 ∧
      ∀ i, i < 256 →
        rows.flatten[i]? =
          some (crc_iter (native_bytes big_endian i).reverse poly poly_bits)) := by
  have hend : table_end 8 = some 255 := by decide
  have hmin : MIN 8 255 = 8 := by decide
  constructor
  · simp only [crc_gentable_sameendian, hend, hmin]
    exact table_8_8 _ fuel hfuel
  · simp only [crc_gentable_diffendian, hend, hmin]
    obtain ⟨rows, h1, h2, h3, h4, h5⟩ := table_8_8
      (fun num => crc_iter (native_bytes big_endian (byteswap64 num)) poly poly_bits) fuel hfuel
    refine ⟨rows, h1, h2, h3, h4, fun i hi => ?_⟩
    rw [h5 i hi, byteswap64_low_byte i hi]

/-- C10 (witness): the CRC-8 generator `0x107` on a little-endian host, with 256
units of fuel. -/
theorem gentable_8_8_witness :
    256 ≤ 256 ∧
    (∃ rows, crc_gentable_sameendian 256 false 0x107 8 8 8 = some rows ∧
      rows.length = 32 ∧ (∀ row ∈ rows, row.length = 8) ∧ rows.flatten.length = 256 ∧
      ∀ i, i < 256 →
        rows.flatten[i]? = some (crc_iter (native_bytes false i) 0x107 8)) ∧
    (∃ rows, crc_gentable_diffendian 256 false 0x107 8 8 8 = some rows ∧
      rows.length = 32 ∧ (∀ row ∈ rows, row.length = 8) ∧ rows.flatten.length = 256 ∧
      ∀ i, i < 256 →
        rows.flatten[i]? = some (crc_iter (native_bytes false i).reverse 0x107 8)) :=
  ⟨by decide, gentable_8_8 256 false 0x107 8 (by decide)⟩

/-! ## Lemmas on the 8-bit table loop and the row shape -/

theorem row_loop_last {α : Type} (emit : Nat → α) (max : Nat) :
    ∀ fuel num row last, row_loop emit max fuel num = some (row, last) →
      add64 num 1 ≤ max → last = max := by
  intro fuel
  induction fuel with
  | zero => intro num row last h; simp [row_loop] at h
  | succ fuel ih =>
    intro num row last h hle
    rw [row_loop] at h
    by_cases hlt : add64 num 1 < max
    · rw [if_pos hlt] at h
      cases hrec : row_loop emit max fuel (add64 num 1) with
      | none => simp [hrec] at h
      | some p =>
        obtain ⟨r, l⟩ := p
        rw [hrec] at h
        simp only [Option.some.injEq, Prod.mk.injEq] at h
        have hnext : add64 (add64 num 1) 1 ≤ max := by
          have : add64 (add64 num 1) 1 ≤ add64 num 1 + 1 := by
            rw [add64]; exact Nat.mod_le _ _
          omega
        rw [← h.2]
        exact ih _ _ _ hrec hnext
    · rw [if_neg hlt] at h
      simp only [Option.some.injEq, Prod.mk.injEq] at h
      omega

theorem row_loop8_eq {α : Type} (emit8 emit : Nat → α) (max : Nat) (hmax : max ≤ 255)
    (hemit : ∀ i, i ≤ max → emit8 i = emit i) :
    ∀ fuel num8 num, (num8 + 1) % 2 ^ 8 = add64 num 1 → add64 num 1 ≤ max →
      row_loop8 emit8 max fuel num8 = row_loop emit max fuel num := by
  intro fuel
  induction fuel with
  | zero => intro num8 num _ _; rfl
  | succ fuel ih =>
    intro num8 num hcur hle
    rw [row_loop8, row_loop, hcur, hemit _ hle]
    by_cases hlt : add64 num 1 < max
    · have h8 : (add64 num 1 + 1) % 2 ^ 8 = add64 num 1 + 1 := Nat.mod_eq_of_lt (by omega)
      have h64 : add64 (add64 num 1) 1 = add64 num 1 + 1 := by
        rw [add64, Nat.mod_eq_of_lt (show add64 num 1 + 1 < 2 ^ 64 by omega)]
      simp only [if_pos hlt]
      rw [ih (add64 num 1) (add64 num 1) (by rw [h8, h64]) (by rw [h64]; omega)]
    · simp only [if_neg hlt]

theorem row_max8_eq {e columns : Nat} (h1 : 1 ≤ columns) (h2 : columns ≤ e) (he : e ≤ 255)
    (num8 num : Nat) (hcur : (num8 + 1) % 2 ^ 8 = add64 num 1) (hle : add64 num 1 ≤ e) :
    row_max8 e columns num8 = row_max e columns num := by
  rw [row_max_eq h1 h2 (by omega) hle num rfl]
  simp only [row_max8, hcur, MIN]
  generalize add64 num 1 = c at hle
  simp only [add64, sub64]
  split_ifs <;> omega

theorem table_loop8_eq {α : Type} (emit8 emit : Nat → α) (e columns : Nat)
    (h1 : 1 ≤ columns) (h2 : columns ≤ e) (he : e ≤ 255)
    (hemit : ∀ i, i ≤ e → emit8 i = emit i) :
    ∀ fuel num8 num, (num8 + 1) % 2 ^ 8 = add64 num 1 → add64 num 1 ≤ e →
      table_loop8 emit8 e columns fuel num8 = table_loop emit e columns fuel num := by
  intro fuel
  induction fuel with
  | zero => intro num8 num _ _; rfl
  | succ fuel ih =>
    intro num8 num hcur hle
    have hmax := row_max_eq h1 h2 (show e < 2 ^ 64 by omega) hle num rfl
    have hM : add64 num 1 ≤ row_max e columns num ∧ row_max e columns num ≤ e := by
      rw [hmax]; split <;> omega
    rw [table_loop8, table_loop, row_max8_eq h1 h2 he num8 num hcur hle,
      row_loop8_eq emit8 emit _ (by omega) (fun i hi => hemit i (by omega)) _ _ _ hcur hM.1]
    cases hrow : row_loop emit (row_max e columns num) (fuel + 1) num with
    | none => rfl
    | some p =>
      obtain ⟨row, last⟩ := p
      have hlast := row_loop_last emit _ _ _ _ _ hrow hM.1
      simp only
      by_cases hlt : last < e
      · have h8 : (last + 1) % 2 ^ 8 = last + 1 := Nat.mod_eq_of_lt (by omega)
        have h64 : add64 last 1 = last + 1 := by
          rw [add64, Nat.mod_eq_of_lt (show last + 1 < 2 ^ 64 by omega)]
        simp only [if_pos hlt]
        rw [ih last last (by rw [h8, h64]) (by rw [h64]; omega)]
      · simp only [if_neg hlt]

theorem table_loop_rows {α : Type} (emit : Nat → α) (e columns : Nat) (h1 : 1 ≤ columns)
    (h2 : columns ≤ e) (he : e < 2 ^ 64) :
    ∀ fuel num, add64 num 1 ≤ e → e - add64 num 1 < fuel →
      ∃ rows last, table_loop emit e columns fuel num = some rows ∧
        rows.getLast? = some last ∧
        last.length = last_row_length (e - add64 num 1 + 1) columns ∧
        ∀ row ∈ rows, row.length ≤ columns := by
  intro fuel
  induction fuel with
  | zero => intro num _ h; omega
  | succ fuel ih =>
    intro num hle hfuel
    have hmax := row_max_eq h1 h2 he hle num rfl
    generalize hC : add64 num 1 = c at hle hfuel hmax
    generalize hM : row_max e columns num = M at hmax
    have hMb : c ≤ M ∧ M ≤ e := by rw [hmax]; split <;> omega
    have hrow := row_loop_spec emit M (by omega) (fuel + 1) num (by omega) (by omega)
    rw [hC] at hrow
    rw [table_loop, hM, hrow]
    by_cases hlt : M < e
    · have hMc : M = c + columns - 1 := by
        rw [hmax]; rw [hmax] at hlt; split_ifs at hlt ⊢ <;> omega
      have hnext : add64 M 1 = M + 1 := by
        rw [add64, Nat.mod_eq_of_lt (show M + 1 < 2 ^ 64 by omega)]
      obtain ⟨rows, last, hrows, hlast, hlen, hall⟩ :=
        ih M (by rw [hnext]; omega) (by rw [hnext]; omega)
      simp only [if_pos hlt, hrows]
      refine ⟨_, last, rfl, ?_, ?_, ?_⟩
      · rw [List.getLast?_cons, hlast]; rfl
      · rw [hlen, hnext, last_row_length, last_row_length]
        have : e - c + 1 = (e - (M + 1) + 1) + columns := by omega
        rw [this, Nat.add_mod_right]
      · intro row hrow'
        rcases List.mem_cons.1 hrow' with h | h
        · subst h
          simp only [List.length_map, List.length_range']
          omega
        · exact hall row h
    · have hm : M = e := by omega
      simp only [if_neg hlt]
      refine ⟨[List.map emit (List.range' c (M - c + 1))],
        List.map emit (List.range' c (M - c + 1)), rfl, rfl, ?_, ?_⟩
      · simp only [List.length_map, List.length_range', last_row_length, hm]
        rw [hmax] at hm
        split_ifs at hm with hcase
        · rw [Nat.mod_eq_of_lt (by omega), if_neg (by omega)]
        · have : e - c + 1 = columns := by omega
          rw [this, Nat.mod_self, if_pos rfl]
      · intro row hrow'
        simp only [List.mem_singleton] at hrow'
        subst hrow'
        simp only [List.length_map, List.length_range']
        rw [hmax] at hm
        split_ifs at hm <;> omega

theorem MIN_clamp {columns e : Nat} (hc : 1 ≤ columns) (he : 1 ≤ e) :
    1 ≤ MIN columns e ∧ MIN columns e ≤ e ∧ MIN columns e ≤ columns := by
  unfold MIN; split <;> omega

theorem table_loop8_start {α : Type} (emit8 emit : Nat → α) (e columns fuel : Nat)
    (he1 : 1 ≤ e) (he : e ≤ 255) (hc : 1 ≤ columns)
    (hemit : ∀ i, i ≤ e → emit8 i = emit i) :
    table_loop8 emit8 e (MIN columns e) fuel (2 ^ 8 - 1)
      = table_loop emit e (MIN columns e) fuel (2 ^ 64 - 1) := by
  have hmin := MIN_clamp hc he1
  have hstart : add64 (2 ^ 64 - 1) 1 = 0 := by decide
  exact table_loop8_eq emit8 emit e _ hmin.1 hmin.2.1 he hemit fuel _ _
    (by decide) (by rw [hstart]; omega)

theorem table_rows_shape {α : Type} (emit : Nat → α) (e columns fuel : Nat)
    (he1 : 1 ≤ e) (he : e < 2 ^ 64) (hc : 1 ≤ columns) (hfuel : e < fuel) :
    ∃ rows last, table_loop emit e (MIN columns e) fuel (2 ^ 64 - 1) = some rows ∧
      rows.getLast? = some last ∧
      last.length = last_row_length (e + 1) (MIN columns e) ∧
      ∀ row ∈ rows, row.length ≤ MIN columns e := by
  have hmin := MIN_clamp hc he1
  have hstart : add64 (2 ^ 64 - 1) 1 = 0 := by decide
  have h := table_loop_rows emit e (MIN columns e) hmin.1 hmin.2.1 he fuel (2 ^ 64 - 1)
    (by rw [hstart]; omega) (by rw [hstart]; omega)
  rw [hstart] at h
  exact h

theorem table_end8_le (table_bits e : Nat) (h : table_end8 table_bits = some e) : e ≤ 255 := by
  unfold table_end8 at h
  split at h
  · exact absurd h (by simp)
  · simp only [Option.some.injEq] at h
    omega

theorem table_end_lt (table_bits e : Nat) (h : table_end table_bits = some e) : e < 2 ^ 64 := by
  unfold table_end at h
  split at h
  · exact absurd h (by simp)
  · simp only [Option.some.injEq] at h
    omega

/-- A leading zero byte does not change the result of `crc_iter`, for a width up
to 64: it leaves the zero register of the narrow path at zero, and the wide path
has no value either way. -/
theorem crc_iter_zero_cons (message : List Byte) (poly w : Nat) (hw : w ≤ 64) :
    crc_iter (0 :: message) poly w = crc_iter message poly w := by
  by_cases h48 : w ≤ 48
  · have hz : sub48_byte (shl64 poly 8) w 0 0 = 0 := by
      simp only [sub48_byte]
      exact Function.iterate_fixed (sub48_step_zero _ _) 8
    simp only [crc_iter, if_pos h48, crc_iter_sub48, sub48_register, List.foldl_cons, hz]
  · rw [crc_iter_wide_undefined _ _ _ (by omega) hw,
      crc_iter_wide_undefined _ _ _ (by omega) hw]

theorem native_bytes_low_byte :
    ∀ i, i < 256 →
      native_bytes true i = [0, 0, 0, 0, 0, 0, 0, byte_of i] ∧
      native_bytes false (byteswap64 i) = [0, 0, 0, 0, 0, 0, 0, byte_of i] := by
  decide!

theorem crc_iter_single_byte (i poly w : Nat) (hi : i < 256) (hw : w ≤ 64) :
    crc_iter [byte_of i] poly w = crc_iter (native_bytes true i) poly w ∧
      crc_iter [byte_of i] poly w = crc_iter (native_bytes false (byteswap64 i)) poly w := by
  obtain ⟨h1, h2⟩ := native_bytes_low_byte i hi
  rw [h1, h2]
  simp only [crc_iter_zero_cons _ _ _ hw, and_self]

theorem table_end8_eq (table_bits : Nat) (h1 : 1 ≤ table_bits) (h8 : table_bits ≤ 8) :
    table_end8 table_bits = some (2 ^ table_bits - 1) ∧
      table_end table_bits = some (2 ^ table_bits - 1) ∧
      1 ≤ 2 ^ table_bits - 1 ∧ 2 ^ table_bits - 1 ≤ 255 := by
  interval_cases table_bits <;> decide

/-! ## Lemmas on long division over GF(2) and the narrow path -/

theorem lt_of_testBit_false {a k : Nat} (h : a < 2 ^ (k + 1)) (hb : a.testBit k = false) :
    a < 2 ^ k := by
  by_contra hge
  rw [testBit_top (Nat.le_of_not_lt hge) h] at hb
  exact absurd hb (by decide)

theorem testBit_iff_ge {a k : Nat} (h : a < 2 ^ (k + 1)) : a.testBit k = true ↔ 2 ^ k ≤ a := by
  constructor
  · exact Nat.testBit_implies_ge
  · intro hge; exact testBit_top hge h

theorem shiftLeft_xor (x y m : Nat) : (x ^^^ y) <<< m = x <<< m ^^^ y <<< m := by
  apply Nat.eq_of_testBit_eq
  intro j
  simp only [Nat.testBit_shiftLeft, Nat.testBit_xor]
  by_cases h : j ≥ m <;> simp [h]

theorem shiftLeft_or (x y m : Nat) : (x ||| y) <<< m = x <<< m ||| y <<< m := by
  apply Nat.eq_of_testBit_eq
  intro j
  simp only [Nat.testBit_shiftLeft, Nat.testBit_or]
  by_cases h : j ≥ m <;> simp [h]

theorem xor_mod_two_pow (x y m : Nat) : (x ^^^ y) % 2 ^ m = x % 2 ^ m ^^^ y % 2 ^ m := by
  apply Nat.eq_of_testBit_eq
  intro j
  simp only [Nat.testBit_mod_two_pow, Nat.testBit_xor]
  by_cases h : j < m <;> simp [h]

theorem shiftLeft_or_low_xor (A b g n m : Nat) (hb : b < 2 ^ m) :
    (A <<< m ||| b) ^^^ (g <<< (n + m)) = (A ^^^ (g <<< n)) <<< m ||| b := by
  rw [show g <<< (n + m) = (g <<< n) <<< m by rw [Nat.shiftLeft_add], shiftLeft_xor]
  apply Nat.eq_of_testBit_eq
  intro j
  simp only [Nat.testBit_shiftLeft, Nat.testBit_or, Nat.testBit_xor]
  by_cases h : j ≥ m
  · have hbj : b.testBit j = false :=
      Nat.testBit_lt_two_pow (lt_of_lt_of_le hb (Nat.pow_le_pow_right (by decide) h))
    simp [h, hbj]
  · simp [h]

theorem testBit_shiftLeft_or_low (A b m j : Nat) (hb : b < 2 ^ m) :
    (A <<< m ||| b).testBit (j + m) = A.testBit j := by
  have hbj : b.testBit (j + m) = false :=
    Nat.testBit_lt_two_pow (lt_of_lt_of_le hb (Nat.pow_le_pow_right (by decide) (by omega)))
  simp [Nat.testBit_shiftLeft, Nat.testBit_or, hbj]

theorem mul_256_add (A b : Nat) (hb : b < 256) : A * 256 + b = A <<< 8 ||| b := by
  rw [Nat.shiftLeft_eq, Nat.mul_comm A, show (256 : Nat) = 2 ^ 8 by rfl]
  exact Nat.mul_add_lt_is_or hb A

/-- With the generator in full form long division leaves less than `2 ^ d`. -/
theorem gf2_rem_lt {g d : Nat} (hg1 : 2 ^ d ≤ g) (hg2 : g < 2 ^ (d + 1)) :
    ∀ n a, a < 2 ^ (d + n) → gf2_rem g d n a < 2 ^ d := by
  intro n
  induction n with
  | zero => intro a h; exact h
  | succ n ih =>
    intro a h
    rw [gf2_rem]
    apply ih
    have hgl : 2 ^ (d + n) ≤ g <<< n ∧ g <<< n < 2 ^ (d + n + 1) := by
      rw [Nat.shiftLeft_eq, pow_add, show d + n + 1 = d + 1 + n by omega, pow_add]
      constructor
      · exact Nat.mul_le_mul_right _ hg1
      · exact Nat.mul_lt_mul_of_pos_right hg2 (by positivity)
    split
    · next hb =>
      exact xor_top_lt (Nat.testBit_implies_ge hb) h hgl.1 hgl.2
    · next hb =>
      exact lt_of_testBit_false h (by simpa using hb)

/-- Long division can be done in two stages: the low `m` bits of the dividend take
no part in the first `n` quotient bits. -/
theorem gf2_rem_split (g d m b : Nat) (hb : b < 2 ^ m) :
    ∀ n A, gf2_rem g d (n + m) (A <<< m ||| b) = gf2_rem g d m (gf2_rem g d n A <<< m ||| b) := by
  intro n
  induction n with
  | zero => intro A; simp [gf2_rem]
  | succ n ih =>
    intro A
    rw [show n + 1 + m = (n + m) + 1 by omega, gf2_rem, gf2_rem,
      show d + (n + m) = (d + n) + m by omega, testBit_shiftLeft_or_low _ _ _ _ hb]
    split
    · rw [shiftLeft_or_low_xor _ _ _ _ _ hb, ih]
    · rw [ih]

/-- Long division is additive in the dividend. -/
theorem gf2_rem_xor (g d : Nat) :
    ∀ n a b, gf2_rem g d n (a ^^^ b) = gf2_rem g d n a ^^^ gf2_rem g d n b := by
  intro n
  induction n with
  | zero => intro a b; rfl
  | succ n ih =>
    intro a b
    simp only [gf2_rem, Nat.testBit_xor]
    rw [← ih]
    congr 1
    cases ha : a.testBit (d + n) <;> cases hb : b.testBit (d + n) <;> simp
    · rw [Nat.xor_assoc]
    · rw [Nat.xor_assoc, Nat.xor_comm b, ← Nat.xor_assoc]
    · rw [Nat.xor_assoc, Nat.xor_comm (g <<< n), Nat.xor_assoc b, Nat.xor_self, Nat.xor_zero]

/-- Steps of the narrow path are steps of long division: with `s + k = 8`, `k` steps
on the dividend `a` shifted left by `s` leave the result of deciding `k` quotient
bits of `a`, shifted left by 8. -/
theorem sub48_steps_eq {g w : Nat} (hw : w ≤ 48) (hg1 : 2 ^ w ≤ g) (hg2 : g < 2 ^ (w + 1)) :
    ∀ k s a, s + k = 8 → a < 2 ^ (w + k) →
      (sub48_step (shl64 g 8) w)^[k] (a <<< s) = gf2_rem g w k a <<< 8 := by
  have h57 : 2 ^ (w + 9) ≤ 2 ^ 57 := Nat.pow_le_pow_right (by decide) (by omega)
  have e9 : 2 ^ (w + 9) = 2 ^ (w + 1) * 256 := by
    rw [show w + 9 = w + 1 + 8 by omega, pow_add]; rfl
  have hP : shl64 g 8 = g <<< 8 := by
    simp only [shl64, Nat.shiftLeft_eq]
    rw [Nat.mod_eq_of_lt]; omega
  have hP64 : g <<< 8 < 2 ^ 64 := by
    rw [Nat.shiftLeft_eq]; omega
  intro k
  induction k with
  | zero =>
    intro s a hs _
    have : s = 8 := by omega
    subst this; rfl
  | succ k ih =>
    intro s a hs ha
    have hrem : a <<< s < 2 ^ (w + 8) := by
      rw [Nat.shiftLeft_eq, show w + 8 = (w + (k + 1)) + s by omega, pow_add (n := s)]
      exact Nat.mul_lt_mul_of_pos_right ha (by positivity)
    have htop : 2 ^ (w + 7) ≤ a <<< s ↔ a.testBit (w + k) = true := by
      rw [testBit_iff_ge (show a < 2 ^ (w + k + 1) from ha), Nat.shiftLeft_eq,
        show w + 7 = (w + k) + s by omega, pow_add (n := s)]
      exact ⟨fun h => Nat.le_of_mul_le_mul_right h (by positivity),
        fun h => Nat.mul_le_mul_right _ h⟩
    rw [Function.iterate_succ_apply, hP, sub48_step_eq hw hP64 hrem, gf2_rem]
    have hdouble : 2 * a <<< s = a <<< (s + 1) := by
      rw [Nat.shiftLeft_eq, Nat.shiftLeft_eq, pow_succ]; ring
    have hnext : ∀ x, x < 2 ^ (w + k) →
        (sub48_step (g <<< 8) w)^[k] (x <<< (s + 1)) = gf2_rem g w k x <<< 8 := by
      intro x hx
      have := ih (s + 1) x (by omega) hx
      rwa [hP] at this
    have hgl : 2 ^ (w + k) ≤ g <<< k ∧ g <<< k < 2 ^ (w + k + 1) := by
      rw [Nat.shiftLeft_eq, pow_add, show w + k + 1 = w + 1 + k by omega, pow_add]
      exact ⟨Nat.mul_le_mul_right _ hg1, Nat.mul_lt_mul_of_pos_right hg2 (by positivity)⟩
    by_cases hb : a.testBit (w + k) = true
    · rw [if_pos (htop.2 hb), if_pos hb, hdouble,
        show g <<< 8 = (g <<< k) <<< (s + 1) by rw [← Nat.shiftLeft_add]; congr 1; omega,
        ← shiftLeft_xor]
      have := hnext (a ^^^ g <<< k)
        (xor_top_lt (Nat.testBit_implies_ge hb) ha hgl.1 hgl.2)
      rw [show (g <<< k) <<< (s + 1) = g <<< 8 by rw [← Nat.shiftLeft_add]; congr 1; omega]
      exact this
    · rw [if_neg (fun h => hb (htop.1 h)), if_neg hb, hdouble]
      exact hnext a (lt_of_testBit_false ha (by simpa using hb))

theorem message_poly_foldl_lt (message : List Byte) :
    ∀ n P, P < 2 ^ n →
      message.foldl (fun acc b => acc * 256 + b.val) P < 2 ^ (n + 8 * message.length) := by
  induction message with
  | nil => intro n P h; simpa using h
  | cons b l ih =>
    intro n P h
    have hb := b.isLt
    have h8 : P * 256 + b.val < 2 ^ (n + 8) := by
      rw [pow_add]; norm_num; omega
    have := ih (n + 8) _ h8
    rw [List.foldl_cons, List.length_cons]
    rwa [show n + 8 * (l.length + 1) = n + 8 + 8 * l.length by ring]

/-- The register of the narrow path after the message loop, in terms of long
division: the remainder of the bytes read so far, shifted left by 8. -/
theorem sub48_foldl_eq {g w : Nat} (hw : w ≤ 48) (hg1 : 2 ^ w ≤ g) (hg2 : g < 2 ^ (w + 1))
    (message : List Byte) :
    ∀ n P, P < 2 ^ (w + n) →
      message.foldl (sub48_byte (shl64 g 8) w) (gf2_rem g w n P <<< 8) =
        gf2_rem g w (n + 8 * message.length)
          (message.foldl (fun acc b => acc * 256 + b.val) P) <<< 8 := by
  induction message with
  | nil => intro n P _; rfl
  | cons b l ih =>
    intro n P hP
    have hb : b.val < 2 ^ 8 := b.isLt
    have hS := gf2_rem_lt hg1 hg2 n P hP
    have hlt : gf2_rem g w n P <<< 8 ||| b.val < 2 ^ (w + 8) := by
      apply Nat.or_lt_two_pow
      · rw [Nat.shiftLeft_eq, pow_add]
        exact Nat.mul_lt_mul_of_pos_right hS (by positivity)
      · exact lt_of_lt_of_le hb (Nat.pow_le_pow_right (by decide) (by omega))
    have hstep : sub48_byte (shl64 g 8) w (gf2_rem g w n P <<< 8) b
        = gf2_rem g w (n + 8) (P * 256 + b.val) <<< 8 := by
      have := sub48_steps_eq hw hg1 hg2 8 0 _ rfl hlt
      rw [Nat.shiftLeft_zero] at this
      rw [sub48_byte, this, mul_256_add _ _ hb, gf2_rem_split g w 8 b.val hb n P]
    have hP8 : P * 256 + b.val < 2 ^ (w + (n + 8)) := by
      rw [show w + (n + 8) = (w + n) + 8 by omega, pow_add]; norm_num; omega
    rw [List.foldl_cons, List.foldl_cons, hstep, ih (n + 8) _ hP8, List.length_cons]
    congr 2; ring

/-- The register of `crc_iter_sub48` before the final shift is the remainder of
`M(x) * x ^ 8`, shifted left by 8. -/
theorem sub48_register_eq {g w : Nat} (hw : w ≤ 48) (hg1 : 2 ^ w ≤ g) (hg2 : g < 2 ^ (w + 1))
    (message : List Byte) :
    sub48_register message g w = spec_rem8 message g w <<< 8 := by
  have hfold := sub48_foldl_eq hw hg1 hg2 message 0 0 (by positivity)
  simp only [gf2_rem, Nat.zero_shiftLeft, Nat.zero_add] at hfold
  have hM : message_poly message < 2 ^ (w + 8 * message.length) := by
    have := message_poly_foldl_lt message 0 0 (by decide)
    rw [Nat.zero_add] at this
    exact lt_of_lt_of_le this (Nat.pow_le_pow_right (by decide) (by omega))
  have hS := gf2_rem_lt hg1 hg2 _ _ hM
  have hlt : gf2_rem g w (8 * message.length) (message_poly message) <<< 8 < 2 ^ (w + 8) := by
    rw [Nat.shiftLeft_eq, pow_add]
    exact Nat.mul_lt_mul_of_pos_right hS (by positivity)
  have hflush := sub48_steps_eq hw hg1 hg2 8 0 _ rfl hlt
  rw [Nat.shiftLeft_zero] at hflush
  have hsplit := gf2_rem_split g w 8 0 (by decide) (8 * message.length) (message_poly message)
  simp only [Nat.or_zero] at hsplit
  rw [sub48_register, hfold]
  unfold message_poly at hflush hsplit
  rw [hflush, ← hsplit, spec_rem8, message_poly]

theorem crc_iter_sub48_eq {g w : Nat} (hw : w ≤ 48) (hg1 : 2 ^ w ≤ g) (hg2 : g < 2 ^ (w + 1))
    (message : List Byte) :
    crc_iter_sub48 message g w = some (spec_rem8 message g w % 2 ^ 8) := by
  rw [crc_iter_sub48, if_pos hw, sub48_register_eq hw hg1 hg2, Nat.shiftLeft_shiftRight]

theorem states_before_inv (I : Nat → Prop) (f : Nat → Nat) (hf : ∀ x, I x → I (f x)) :
    ∀ n x, I x → ∀ r ∈ states_before f n x, I r := by
  intro n
  induction n with
  | zero => intro x _ r hr; simp [states_before] at hr
  | succ n ih =>
    intro x hx r hr
    rw [states_before, List.mem_cons] at hr
    rcases hr with h | h
    · rw [h]; exact hx
    · exact ih (f x) (hf x hx) r h

/-- Every register on which the narrow path runs a step is below `2 ^ (w + 8)`. -/
theorem sub48_states_lt {g w : Nat} (hw : w ≤ 48) (hg1 : 2 ^ w ≤ g) (hg2 : g < 2 ^ (w + 1))
    (message : List Byte) : ∀ r ∈ sub48_states message g w, r < 2 ^ (w + 8) := by
  have hstep := fun x (hx : x < 2 ^ (w + 8)) => sub48_step_lt hw hg1 hg2 hx
  have hor : ∀ (x : Nat) (b : Byte), x < 2 ^ (w + 8) → x ||| b.val < 2 ^ (w + 8) := by
    intro x b hx
    apply Nat.or_lt_two_pow hx
    have : 2 ^ 8 ≤ 2 ^ (w + 8) := Nat.pow_le_pow_right (by decide) (by omega)
    have := b.isLt
    omega
  have hfold : ∀ (l : List Byte) (acc : Nat × List Nat),
      acc.1 < 2 ^ (w + 8) → (∀ r ∈ acc.2, r < 2 ^ (w + 8)) →
      (l.foldl (fun (acc : Nat × List Nat) b =>
        (sub48_byte (shl64 g 8) w acc.1 b,
          acc.2 ++ states_before (sub48_step (shl64 g 8) w) 8 (acc.1 ||| b.val))) acc).1
          < 2 ^ (w + 8) ∧
      ∀ r ∈ (l.foldl (fun (acc : Nat × List Nat) b =>
        (sub48_byte (shl64 g 8) w acc.1 b,
          acc.2 ++ states_before (sub48_step (shl64 g 8) w) 8 (acc.1 ||| b.val))) acc).2,
        r < 2 ^ (w + 8) := by
    intro l
    induction l with
    | nil => intro acc h1 h2; exact ⟨h1, h2⟩
    | cons b l ih =>
      intro acc h1 h2
      rw [List.foldl_cons]
      apply ih
      · exact iterate_inv (fun x => x < 2 ^ (w + 8)) _ hstep 8 _ (hor _ b h1)
      · intro r hr
        rcases List.mem_append.1 hr with h | h
        · exact h2 r h
        · exact states_before_inv (fun x => x < 2 ^ (w + 8)) _ hstep 8 _ (hor _ b h1) r h
  obtain ⟨h1, h2⟩ := hfold message (0, []) (by positivity) (by simp)
  intro r hr
  rw [sub48_states] at hr
  rcases List.mem_append.1 hr with h | h
  · exact h2 r h
  · exact states_before_inv (fun x => x < 2 ^ (w + 8)) _ hstep 8 _ h1 r h

theorem byte_step_xor (P Q x y : Nat) (hx : x < 256) (hy : y < 256) :
    (P ^^^ Q) * 256 + (x ^^^ y) = (P * 256 + x) ^^^ (Q * 256 + y) := by
  have hxy : x ^^^ y < 256 := Nat.xor_lt_two_pow (n := 8) hx hy
  rw [mul_256_add _ _ hxy, mul_256_add _ _ hx, mul_256_add _ _ hy]
  apply Nat.eq_of_testBit_eq
  intro j
  simp only [Nat.testBit_shiftLeft, Nat.testBit_or, Nat.testBit_xor]
  by_cases h : j ≥ 8
  · have h2 : (2 : Nat) ^ 8 ≤ 2 ^ j := Nat.pow_le_pow_right (by decide) h
    have hxj : x.testBit j = false := Nat.testBit_lt_two_pow (by omega)
    have hyj : y.testBit j = false := Nat.testBit_lt_two_pow (by omega)
    simp [h, hxj, hyj]
  · simp [h]

theorem message_poly_xor (a : List Byte) :
    ∀ (b : List Byte), a.length = b.length → ∀ P Q,
      (message_xor a b).foldl (fun acc c => acc * 256 + c.val) (P ^^^ Q) =
        a.foldl (fun acc c => acc * 256 + c.val) P ^^^
          b.foldl (fun acc c => acc * 256 + c.val) Q := by
  induction a with
  | nil =>
    intro b hlen P Q
    cases b with
    | nil => rfl
    | cons y b => simp at hlen
  | cons x a ih =>
    intro b hlen P Q
    cases b with
    | nil => simp at hlen
    | cons y b =>
      simp only [List.length_cons, Nat.add_right_cancel_iff] at hlen
      simp only [message_xor, List.zipWith_cons_cons, List.foldl_cons]
      have := ih b hlen (P * 256 + x.val) (Q * 256 + y.val)
      rw [← this, ← byte_step_xor _ _ _ _ x.isLt y.isLt]
      rfl

theorem spec_rem8_xor (a b : List Byte) (g w : Nat) (hlen : a.length = b.length) :
    spec_rem8 (message_xor a b) g w = spec_rem8 a g w ^^^ spec_rem8 b g w := by
  have hl : (message_xor a b).length = a.length := by
    simp [message_xor, List.length_zipWith, hlen]
  have hp : message_poly (message_xor a b) = message_poly a ^^^ message_poly b := by
    have := message_poly_xor a b hlen 0 0
    simpa [message_poly] using this
  rw [spec_rem8, spec_rem8, spec_rem8, hl, ← hlen, hp, shiftLeft_xor, gf2_rem_xor]

/-! ## Lemmas on the masks and on the wide path -/

theorem foldl_inv {α β : Type} (I : β → Prop) (f : β → α → β)
    (hf : ∀ x a, I x → I (f x a)) : ∀ (l : List α) x, I x → I (l.foldl f x) := by
  intro l
  induction l with
  | nil => intro x hx; exact hx
  | cons a l ih => intro x hx; exact ih _ (hf x a hx)

theorem foldl_congr_inv {α β : Type} (I : β → Prop) (f g : β → α → β)
    (hfg : ∀ x a, I x → f x a = g x a) (hf : ∀ x a, I x → I (f x a)) :
    ∀ (l : List α) x, I x → l.foldl f x = l.foldl g x := by
  intro l
  induction l with
  | nil => intro x _; rfl
  | cons a l ih =>
    intro x hx
    rw [List.foldl_cons, List.foldl_cons, ← hfg x a hx]
    exact ih _ (hf x a hx)

theorem iterate_congr_inv {α : Type} (I : α → Prop) (f g : α → α)
    (hfg : ∀ x, I x → f x = g x) (hf : ∀ x, I x → I (f x)) :
    ∀ n x, I x → f^[n] x = g^[n] x := by
  intro n
  induction n with
  | zero => intro x _; rfl
  | succ n ih =>
    intro x hx
    rw [Function.iterate_succ_apply, Function.iterate_succ_apply, ← hfg x hx]
    exact ih _ (hf x hx)

/-- The mask of a step: on a register below `2 ^ (k + 1)` the negated top bit is
all ones when bit `k` is set and zero otherwise. -/
theorem mask_eq {r k : Nat} (hr : r < 2 ^ (k + 1)) :
    neg64 (r >>> k) = if r.testBit k then 2 ^ 64 - 1 else 0 := by
  have hsucc : 2 ^ (k + 1) = 2 * 2 ^ k := by rw [pow_succ']
  rw [Nat.shiftRight_eq_div_pow]
  by_cases hb : r.testBit k = true
  · have hge := Nat.testBit_implies_ge hb
    have hdiv : r / 2 ^ k = 1 := by
      apply Nat.div_eq_of_lt_le <;> omega
    rw [hdiv, neg64_one, if_pos hb]
  · have hlt := lt_of_testBit_false hr (by simpa using hb)
    rw [Nat.div_eq_of_lt hlt, neg64_zero, if_neg hb]

theorem sub48_step_cond_eq {p w r : Nat} (hw : w ≤ 48) (hp : p < 2 ^ 64)
    (hr : r < 2 ^ (w + 8)) : sub48_step p w r = sub48_step_cond p w r := by
  have e : w + 8 - 1 = w + 7 := by omega
  rw [sub48_step, sub48_step_cond, e, mask_eq (show r < 2 ^ (w + 7 + 1) from hr)]
  split
  · rw [Nat.and_comm, Nat.and_pow_two_sub_one_of_lt_two_pow hp]
  · simp

theorem crc_iter_sub48_cond_eq {g w : Nat} (hw : w ≤ 48) (hg1 : 2 ^ w ≤ g)
    (hg2 : g < 2 ^ (w + 1)) (message : List Byte) :
    crc_iter_sub48 message g w = crc_iter_sub48_cond message g w := by
  have h57 : 2 ^ (w + 1) ≤ 2 ^ 49 := Nat.pow_le_pow_right (by decide) (by omega)
  have hp : shl64 g 8 < 2 ^ 64 := Nat.mod_lt _ (by decide)
  have hstep := fun x (hx : x < 2 ^ (w + 8)) => sub48_step_lt hw hg1 hg2 hx
  have hcong := fun x (hx : x < 2 ^ (w + 8)) => sub48_step_cond_eq hw hp hx
  have hor : ∀ (x : Nat) (b : Byte), x < 2 ^ (w + 8) → x ||| b.val < 2 ^ (w + 8) := by
    intro x b hx
    apply Nat.or_lt_two_pow hx
    have : 2 ^ 8 ≤ 2 ^ (w + 8) := Nat.pow_le_pow_right (by decide) (by omega)
    have := b.isLt
    omega
  have hfold := foldl_congr_inv (fun x => x < 2 ^ (w + 8))
    (sub48_byte (shl64 g 8) w)
    (fun rem (b : Byte) => (sub48_step_cond (shl64 g 8) w)^[8] (rem ||| b.val))
    (fun x b hx => iterate_congr_inv _ _ _ hcong hstep 8 _ (hor x b hx))
    (fun x b hx => iterate_inv _ _ hstep 8 _ (hor x b hx)) message 0 (by positivity)
  have hinv := foldl_inv (fun x => x < 2 ^ (w + 8)) (sub48_byte (shl64 g 8) w)
    (fun x b hx => iterate_inv _ _ hstep 8 _ (hor x b hx)) message 0 (by positivity)
  rw [crc_iter_sub48, crc_iter_sub48_cond, if_pos hw, if_pos hw, sub48_register]
  simp only
  rw [← hfold, iterate_congr_inv _ _ _ hcong hstep 8 _ hinv]

theorem wide_step_cond_eq {p w r : Nat} (bit : Nat) (hp : p < 2 ^ 64) (hw1 : 1 ≤ w)
    (hr : r < 2 ^ w) : wide_step p w r bit = wide_step_cond p w r bit := by
  have e : w = w - 1 + 1 := by omega
  rw [wide_step, wide_step_cond, mask_eq (show r < 2 ^ (w - 1 + 1) by rwa [← e])]
  split
  · rw [Nat.and_pow_two_sub_one_of_lt_two_pow hp]
  · simp

theorem wide_flush_step_eq (p w r : Nat) : wide_flush_step p w r = wide_step p w r 0 := by
  simp [wide_flush_step, wide_step]

/-- With the polynomial as the code documents it the register of the wide path
stays below `2 ^ w` across a step. -/
theorem wide_step_lt {p w r bit : Nat} (hw1 : 1 ≤ w) (hw : w ≤ 64)
    (hp : if w < 64 then 2 ^ w ≤ p ∧ p < 2 ^ (w + 1) else p < 2 ^ 64)
    (hr : r < 2 ^ w) (hbit : bit ≤ 1) : wide_step p w r bit < 2 ^ w := by
  have e : w = w - 1 + 1 := by omega
  have hsucc : 2 ^ w = 2 * 2 ^ (w - 1) := by rw [← pow_succ', ← e]
  have hp64 : p < 2 ^ 64 := by
    split at hp
    · have : 2 ^ (w + 1) ≤ 2 ^ 64 := Nat.pow_le_pow_right (by decide) (by omega)
      omega
    · exact hp
  have hbitw : bit < 2 ^ w := by
    have : 2 ^ 1 ≤ 2 ^ w := Nat.pow_le_pow_right (by decide) hw1
    omega
  rw [wide_step_cond_eq bit hp64 hw1 hr, wide_step_cond]
  by_cases h64 : w < 64
  · rw [if_pos h64] at hp
    have h2 : 2 ^ (w + 1) ≤ 2 ^ 64 := Nat.pow_le_pow_right (by decide) (by omega)
    have hsucc2 : 2 ^ (w + 1) = 2 * 2 ^ w := by rw [pow_succ']
    have hshl : shl64 r 1 = 2 * r := by
      simp only [shl64, Nat.shiftLeft_eq, pow_one]
      rw [Nat.mod_eq_of_lt] <;> omega
    have hor : 2 * r ||| bit = 2 * r + bit := by
      have := Nat.mul_add_lt_is_or (show bit < 2 ^ 1 by omega) r
      rw [pow_one] at this
      exact this.symm
    rw [hshl, hor]
    split
    · next hb =>
      have hge : 2 ^ (w - 1) ≤ r := Nat.testBit_implies_ge hb
      exact xor_top_lt (by omega) (by omega) hp.1 hp.2
    · next hb =>
      have hlt : r < 2 ^ (w - 1) :=
        lt_of_testBit_false (by rwa [← e]) (by simpa using hb)
      omega
  · have hw64 : w = 64 := by omega
    subst hw64
    have hshl : shl64 r 1 < 2 ^ 64 := Nat.mod_lt _ (by decide)
    split
    · exact Nat.xor_lt_two_pow (Nat.or_lt_two_pow hshl hbitw) hp64
    · exact Nat.or_lt_two_pow hshl hbitw

theorem and_F8 (w : Nat) (hw : w ≤ 64) : w &&& 0xF8 = 8 * (w / 8) := by
  interval_cases w <;> decide

theorem int_shl_eq {a s v : Nat} (h : int_shl a s = some v) : v = a * 2 ^ s := by
  unfold int_shl at h
  split at h
  · simp only [Option.some.injEq] at h; exact h.symm
  · exact absurd h (by simp)

/-- Where the preload has a value, it is below `2 ^ w`. -/
theorem wide_preload_lt (message : List Byte) (w r : Nat) (hw : w ≤ 64)
    (h : wide_preload message w = some r) : r < 2 ^ w := by
  have hF8 := and_F8 w hw
  have key : ∀ (l : List Nat) rem r, rem < 2 ^ w → (∀ i ∈ l, i < w / 8) →
      l.foldlM (fun rem i =>
        match message.get? i with
        | none => none
        | some b =>
          match int_shl b.val ((w &&& 0xF8) - (i + 1) * 8) with
          | none => none
          | some v => some (rem ||| v)) rem = some r → r < 2 ^ w := by
    intro l
    induction l with
    | nil =>
      intro rem r hrem _ h
      simp only [List.foldlM_nil, pure, Option.some.injEq] at h
      rw [← h]; exact hrem
    | cons i l ih =>
      intro rem r hrem hl h
      rw [List.foldlM_cons] at h
      cases hget : message.get? i with
      | none =>
        simp only [hget, Option.none_bind] at h
        exact absurd h (by simp)
      | some b =>
        cases hshl : int_shl b.val ((w &&& 0xF8) - (i + 1) * 8) with
        | none =>
          simp only [hget, hshl, Option.none_bind] at h
          exact absurd h (by simp)
        | some v =>
          simp only [hget, hshl, Option.some_bind] at h
          have hi : i < w / 8 := hl i (List.mem_cons_self _ _)
          have hv := int_shl_eq hshl
          have hvlt : v < 2 ^ w := by
            rw [hv, hF8]
            have hb := b.isLt
            have hle : 8 * (w / 8) - (i + 1) * 8 + 8 ≤ w := by omega
            calc b.val * 2 ^ (8 * (w / 8) - (i + 1) * 8)
                < 2 ^ 8 * 2 ^ (8 * (w / 8) - (i + 1) * 8) :=
                  Nat.mul_lt_mul_of_pos_right hb (by positivity)
              _ = 2 ^ (8 * (w / 8) - (i + 1) * 8 + 8) := by rw [← pow_add, Nat.add_comm]
              _ ≤ 2 ^ w := Nat.pow_le_pow_right (by decide) hle
          exact ih _ _ (Nat.or_lt_two_pow hrem hvlt)
            (fun j hj => hl j (List.mem_cons_of_mem _ hj)) h
  exact key _ 0 r (by positivity) (fun i hi => List.mem_range.1 hi) h

theorem bit_le_one (b j : Nat) : (b >>> (7 - j)) &&& 1 ≤ 1 := Nat.and_le_right

/-- Every register on which the wide path runs a step is below `2 ^ w`. -/
theorem wide_states_lt {p w : Nat} (hw1 : 1 ≤ w) (hw : w ≤ 64)
    (hp : if w < 64 then 2 ^ w ≤ p ∧ p < 2 ^ (w + 1) else p < 2 ^ 64)
    (message : List Byte) (states : List Nat) (h : wide_states message p w = some states) :
    ∀ r ∈ states, r < 2 ^ w := by
  have hstep : ∀ x (j : Nat) (b : Byte), x < 2 ^ w →
      wide_step p w x ((b.val >>> (7 - j)) &&& 1) < 2 ^ w :=
    fun x j b hx => wide_step_lt hw1 hw hp hx (bit_le_one _ _)
  have hflush : ∀ x, x < 2 ^ w → wide_flush_step p w x < 2 ^ w := by
    intro x hx
    rw [wide_flush_step_eq]
    exact wide_step_lt hw1 hw hp hx (by decide)
  have hbyte : ∀ x (b : Byte), x < 2 ^ w → wide_byte p w x b < 2 ^ w := by
    intro x b hx
    exact foldl_inv (fun x => x < 2 ^ w) _ (fun y j hy => hstep y j b hy) _ x hx
  have hbs : ∀ x (b : Byte), x < 2 ^ w → ∀ r ∈ wide_byte_states p w x b, r < 2 ^ w := by
    intro x b hx r hr
    obtain ⟨j, _, rfl⟩ := List.mem_map.1 hr
    exact foldl_inv (fun x => x < 2 ^ w) _ (fun y j hy => hstep y j b hy) _ x hx
  have hfold : ∀ (l : List Byte) (acc : Nat × List Nat),
      acc.1 < 2 ^ w → (∀ r ∈ acc.2, r < 2 ^ w) →
      (l.foldl (fun (acc : Nat × List Nat) b =>
        (wide_byte p w acc.1 b, acc.2 ++ wide_byte_states p w acc.1 b)) acc).1 < 2 ^ w ∧
      ∀ r ∈ (l.foldl (fun (acc : Nat × List Nat) b =>
        (wide_byte p w acc.1 b, acc.2 ++ wide_byte_states p w acc.1 b)) acc).2,
        r < 2 ^ w := by
    intro l
    induction l with
    | nil => intro acc h1 h2; exact ⟨h1, h2⟩
    | cons b l ih =>
      intro acc h1 h2
      rw [List.foldl_cons]
      apply ih
      · exact hbyte _ b h1
      · intro r hr
        rcases List.mem_append.1 hr with h | h
        · exact h2 r h
        · exact hbs _ b h1 r h
  unfold wide_states at h
  split at h
  · cases hpre : wide_preload message w with
    | none => simp [hpre] at h
    | some rem =>
      have hrem := wide_preload_lt message w rem hw hpre
      simp only [hpre, Option.some.injEq] at h
      obtain ⟨h1, h2⟩ := hfold (message.drop (w / 8)) (rem, []) hrem (by simp)
      intro r hr
      rw [← h] at hr
      rcases List.mem_append.1 hr with h' | h'
      · exact h2 r h'
      · exact states_before_inv (fun x => x < 2 ^ w) _ hflush _ _ h1 r h'
  · exact absurd h (by simp)

theorem crc_iter_wide_cond_eq {p w : Nat} (hw1 : 1 ≤ w) (hw : w ≤ 64)
    (hp : if w < 64 then 2 ^ w ≤ p ∧ p < 2 ^ (w + 1) else p < 2 ^ 64)
    (message : List Byte) : crc_iter_wide message p w = crc_iter_wide_cond message p w := by
  have hp64 : p < 2 ^ 64 := by
    split at hp
    · have : 2 ^ (w + 1) ≤ 2 ^ 64 := Nat.pow_le_pow_right (by decide) (by omega)
      omega
    · exact hp
  have hstep : ∀ x (j : Nat) (b : Byte), x < 2 ^ w →
      wide_step p w x ((b.val >>> (7 - j)) &&& 1) < 2 ^ w :=
    fun x j b hx => wide_step_lt hw1 hw hp hx (bit_le_one _ _)
  have hflush : ∀ x, x < 2 ^ w → wide_flush_step p w x < 2 ^ w := by
    intro x hx
    rw [wide_flush_step_eq]
    exact wide_step_lt hw1 hw hp hx (by decide)
  have hbyte : ∀ x (b : Byte), x < 2 ^ w → wide_byte p w x b < 2 ^ w := by
    intro x b hx
    exact foldl_inv (fun x => x < 2 ^ w) _ (fun y j hy => hstep y j b hy) _ x hx
  have hbytec : ∀ x (b : Byte), x < 2 ^ w → wide_byte p w x b =
      (List.range 8).foldl
        (fun rem j => wide_step_cond p w rem ((b.val >>> (7 - j)) &&& 1)) x := by
    intro x b hx
    exact foldl_congr_inv (fun x => x < 2 ^ w) _ _
      (fun y j hy => wide_step_cond_eq _ hp64 hw1 hy) (fun y j hy => hstep y j b hy) _ x hx
  unfold crc_iter_wide crc_iter_wide_cond
  split
  · cases hpre : wide_preload message w with
    | none => rfl
    | some rem =>
      have hrem := wide_preload_lt message w rem hw hpre
      simp only
      rw [← foldl_congr_inv (fun x => x < 2 ^ w) _ _ hbytec hbyte _ rem hrem,
        ← iterate_congr_inv (fun x => x < 2 ^ w) (wide_flush_step p w)
          (fun rem => wide_step_cond p w rem 0)
          (fun x hx => by rw [wide_flush_step_eq, wide_step_cond_eq _ hp64 hw1 hx])
          hflush w _ (foldl_inv _ _ hbyte _ rem hrem)]
  · rfl

theorem message_poly_append (l : List Byte) (b : Byte) :
    message_poly (l ++ [b]) = message_poly l <<< 8 ||| b.val := by
  rw [message_poly, List.foldl_append, List.foldl_cons, List.foldl_nil, ← message_poly,
    mul_256_add _ _ b.isLt]

/-- Where the preload has a value, it is the first `w / 8` message bytes, read most
significant byte first; the message has at least that many bytes. -/
theorem wide_preload_eq (message : List Byte) (w r : Nat) (hw : w ≤ 64)
    (h : wide_preload message w = some r) :
    r = message_poly (message.take (w / 8)) ∧ w / 8 ≤ message.length := by
  have hF8 := and_F8 w hw
  have key : ∀ k, k ≤ w / 8 → ∀ r,
      (List.range k).foldlM (fun rem i =>
        match message.get? i with
        | none => none
        | some b =>
          match int_shl b.val ((w &&& 0xF8) - (i + 1) * 8) with
          | none => none
          | some v => some (rem ||| v)) 0 = some r →
      r = message_poly (message.take k) <<< (8 * (w / 8 - k)) ∧ k ≤ message.length := by
    intro k
    induction k with
    | zero =>
      intro _ r h
      simp only [List.range_zero, List.foldlM_nil, pure, Option.some.injEq] at h
      rw [← h]
      simp [message_poly]
    | succ k ih =>
      intro hk r h
      rw [List.range_succ, List.foldlM_append] at h
      cases hpre : (List.range k).foldlM (fun rem i =>
        match message.get? i with
        | none => none
        | some b =>
          match int_shl b.val ((w &&& 0xF8) - (i + 1) * 8) with
          | none => none
          | some v => some (rem ||| v)) 0 with
      | none =>
        rw [hpre] at h
        exact absurd h (by simp)
      | some r0 =>
        rw [hpre] at h
        simp only [Option.some_bind, List.foldlM_cons, List.foldlM_nil] at h
        obtain ⟨hr0, hlen⟩ := ih (by omega) r0 hpre
        cases hget : message.get? k with
        | none =>
          simp only [hget, Option.none_bind] at h
          exact absurd h (by simp)
        | some b =>
          cases hshl : int_shl b.val ((w &&& 0xF8) - (k + 1) * 8) with
          | none =>
            simp only [hget, hshl, Option.none_bind] at h
            exact absurd h (by simp)
          | some v =>
            simp only [hget, hshl] at h
            have h : r0 ||| v = r := by simpa using h
            have hv := int_shl_eq hshl
            have hklt : k < message.length := by
              rw [List.get?_eq_getElem?] at hget
              exact (List.getElem?_eq_some_iff.1 hget).1
            have htake : message.take (k + 1) = message.take k ++ [b] := by
              rw [List.take_succ, ← List.get?_eq_getElem?, hget]; rfl
            refine ⟨?_, hklt⟩
            rw [← h, hr0, hv, htake, message_poly_append, hF8,
              show 8 * (w / 8) - (k + 1) * 8 = 8 * (w / 8 - (k + 1)) by omega,
              show 8 * (w / 8 - k) = 8 + 8 * (w / 8 - (k + 1)) by omega,
              Nat.shiftLeft_add, ← Nat.shiftLeft_eq, ← shiftLeft_or]
  have := key (w / 8) (le_refl _) r h
  simpa using this

theorem foldlM_option_congr {α β : Type} (f g : β → α → Option β) :
    ∀ (l : List α) x, (∀ i ∈ l, ∀ y, f y i = g y i) → l.foldlM f x = l.foldlM g x := by
  intro l
  induction l with
  | nil => intro x _; rfl
  | cons a l ih =>
    intro x h
    rw [List.foldlM_cons, List.foldlM_cons, h a (List.mem_cons_self _ _) x]
    cases g x a with
    | none => rfl
    | some y => exact ih y (fun i hi z => h i (List.mem_cons_of_mem _ hi) z)

/-- The preload reads only the first `w / 8` bytes of the message. -/
theorem wide_preload_take (message : List Byte) (w : Nat) :
    wide_preload message w = wide_preload (message.take (w / 8)) w := by
  unfold wide_preload
  apply foldlM_option_congr
  intro i hi y
  rw [List.get?_eq_getElem?, List.get?_eq_getElem?,
    List.getElem?_take_of_lt (List.mem_range.1 hi)]

/-- A step of the wide path on a register whose top bit is clear shifts the next
message bit in. -/
theorem wide_step_load {p w r bit : Nat} (hw1 : 1 ≤ w) (hw : w ≤ 64) (hr : r < 2 ^ (w - 1))
    (hbit : bit ≤ 1) : wide_step p w r bit = 2 * r + bit := by
  have h63 : 2 ^ (w - 1) ≤ 2 ^ 63 := Nat.pow_le_pow_right (by decide) (by omega)
  have hb : r.testBit (w - 1) = false := Nat.testBit_lt_two_pow hr
  have hsucc : 2 ^ (w - 1 + 1) = 2 * 2 ^ (w - 1) := by rw [pow_succ']
  have hshl : shl64 r 1 = 2 * r := by
    simp only [shl64, Nat.shiftLeft_eq, pow_one]
    rw [Nat.mod_eq_of_lt] <;> omega
  have hor : 2 * r ||| bit = 2 * r + bit := by
    have := Nat.mul_add_lt_is_or (show bit < 2 ^ 1 by omega) r
    rw [pow_one] at this
    exact this.symm
  rw [wide_step, mask_eq (show r < 2 ^ (w - 1 + 1) by omega), hb, hshl, hor]
  simp

theorem wide_bits_load {p w : Nat} (hw1 : 1 ≤ w) (hw : w ≤ 64) (β : Nat → Nat)
    (hβ : ∀ j, β j ≤ 1) :
    ∀ (l : List Nat) r, l.length ≤ w → r < 2 ^ (w - l.length) →
      l.foldl (fun rem j => wide_step p w rem (β j)) r =
        l.foldl (fun rem j => 2 * rem + β j) r := by
  intro l
  induction l with
  | nil => intro r _ _; rfl
  | cons j l ih =>
    intro r hlen hr
    rw [List.length_cons] at hlen hr
    have hr1 : r < 2 ^ (w - 1) :=
      lt_of_lt_of_le hr (Nat.pow_le_pow_right (by decide) (by omega))
    rw [List.foldl_cons, List.foldl_cons, wide_step_load hw1 hw hr1 (hβ j)]
    apply ih _ (by omega)
    have e : 2 ^ (w - l.length) = 2 * 2 ^ (w - (l.length + 1)) := by
      rw [← pow_succ']; congr 1; omega
    have := hβ j
    omega

theorem byte_bits :
    ∀ b : Byte, (List.range 8).foldl (fun rem j => 2 * rem + ((b.val >>> (7 - j)) &&& 1)) 0
      = b.val := by
  decide!

theorem bits_foldl_shift (β : Nat → Nat) :
    ∀ (l : List Nat) r, l.foldl (fun rem j => 2 * rem + β j) r =
      r * 2 ^ l.length + l.foldl (fun rem j => 2 * rem + β j) 0 := by
  intro l
  induction l with
  | nil => intro r; simp
  | cons j l ih =>
    intro r
    rw [List.foldl_cons, List.foldl_cons, ih (2 * r + β j), ih (2 * 0 + β j), List.length_cons,
      pow_succ]
    ring

/-- A byte fed to a register with eight clear top bits is appended to it. -/
theorem wide_byte_load {p w r : Nat} (b : Byte) (hw8 : 8 ≤ w) (hw : w ≤ 64)
    (hr : r < 2 ^ (w - 8)) : wide_byte p w r b = r * 256 + b.val := by
  rw [wide_byte, wide_bits_load (by omega) hw (fun j => (b.val >>> (7 - j)) &&& 1)
    (fun j => bit_le_one _ _) _ r (by simp; omega) (by simpa using hr), bits_foldl_shift,
    byte_bits]
  simp

theorem wide_bytes_load {p w : Nat} (hw : w ≤ 64) :
    ∀ (l : List Byte) P, 8 * l.length ≤ w → P < 2 ^ (w - 8 * l.length) →
      l.foldl (wide_byte p w) P = l.foldl (fun acc b => acc * 256 + b.val) P := by
  intro l
  induction l with
  | nil => intro P _ _; rfl
  | cons b l ih =>
    intro P hlen hP
    rw [List.length_cons] at hlen hP
    have hP8 : P < 2 ^ (w - 8) :=
      lt_of_lt_of_le hP (Nat.pow_le_pow_right (by decide) (by omega))
    rw [List.foldl_cons, List.foldl_cons, wide_byte_load b (by omega) hw hP8]
    apply ih _ (by omega)
    have e : 2 ^ (w - 8 * l.length) = 2 ^ (w - 8 * (l.length + 1)) * 256 := by
      rw [show w - 8 * l.length = (w - 8 * (l.length + 1)) + 8 by omega, pow_add]; rfl
    have := b.isLt
    omega

/-- Where the wide path has a value, it is the value of the naive variant: the
preload is what feeding the first `w / 8` bytes bit by bit from register 0 gives. -/
theorem wide_eq_naive (message : List Byte) (p w r : Nat) (hw2 : 2 ≤ w) (hw : w ≤ 64)
    (h : crc_iter_wide message p w = some r) : r = crc_iter_naive message p w := by
  rw [crc_iter_wide, if_pos (by omega)] at h
  cases hpre : wide_preload message w with
  | none => rw [hpre] at h; exact absurd h (by simp)
  | some r0 =>
    rw [hpre] at h
    simp only [Option.some.injEq] at h
    obtain ⟨hr0, hlen⟩ := wide_preload_eq message w r0 hw hpre
    have htake : (message.take (w / 8)).length = w / 8 := by
      rw [List.length_take]; omega
    have hload := wide_bytes_load (p := p) hw (message.take (w / 8)) 0
      (by rw [htake]; omega) (by positivity)
    rw [crc_iter_naive, ← h]
    conv_rhs => rw [← List.take_append_drop (w / 8) message, List.foldl_append, hload]
    rw [hr0, message_poly]

/-! ## Lemmas on the wide path for any value of the preload shift -/

theorem wide_preload_with_int_shl (message : List Byte) (w : Nat) :
    wide_preload_with int_shl message w = wide_preload message w := rfl

theorem crc_iter_wide_with_int_shl (message : List Byte) (poly w : Nat) :
    crc_iter_wide_with int_shl message poly w = crc_iter_wide message poly w := rfl

/-- C11 (counterexample). With `end = 1` (`table_bits = 1`) and 2 requested columns,
which is `end + 1`, `crc_gentable_sameendian` and `crc_gentable_8` emit two rows of
one entry: the last row has 1 entry, not the 2 that `(end + 1) mod columns = 0`
calls for. -/
theorem gentable_rows_cex :
    table_end 1 = some 1 ∧ table_end8 1 = some 1 ∧
      crc_gentable_sameendian 2 false 0x107 8 1 2 = some [[some 0], [some 0x13]] ∧
      crc_gentable_8 2 0x107 8 1 2 = some [[some 0], [some 0x07]] ∧
      last_row_length (1 + 1) 2 = 2 := by
  decide!

/-- C11 (amended). For every bound `e ≥ 1` a generator computes and every requested
`columns ≥ 1`, with `MIN columns e` the number of columns the generators clamp to
(it is `columns` itself whenever `columns ≤ e`): each of `crc_gentable_sameendian`,
`crc_gentable_diffendian` and `crc_gentable_8` stops, no emitted row has more than
`MIN columns e` entries, and the last emitted row has `(e + 1) mod (MIN columns e)`
entries if that is nonzero and `MIN columns e` entries otherwise. -/
theorem gentable_rows_shape (fuel : Nat) (big_endian : Bool)
    (poly poly_bits table_bits columns e : Nat) (he1 : 1 ≤ e) (hc : 1 ≤ columns)
    (hfuel : e < fuel) :
    (table_end table_bits = some e →
      (∃ rows last,
        crc_gentable_sameendian fuel big_endian poly poly_bits table_bits columns = some rows ∧
        rows.getLast? = some last ∧
        last.length = last_row_length (e + 1) (MIN columns e) ∧
        ∀ row ∈ rows, row.length ≤ MIN columns e) ∧
      (∃ rows last,
        crc_gentable_diffendian fuel big_endian poly poly_bits table_bits columns = some rows ∧
        rows.getLast? = some last ∧
        last.length = last_row_length (e + 1) (MIN columns e) ∧
        ∀ row ∈ rows, row.length ≤ MIN columns e)) ∧
    (table_end8 table_bits = some e →
      ∃ rows last, crc_gentable_8 fuel poly poly_bits table_bits columns = some rows ∧
        rows.getLast? = some last ∧
        last.length = last_row_length (e + 1) (MIN columns e) ∧
        ∀ row ∈ rows, row.length ≤ MIN columns e) ∧
    MIN columns e ≤ columns ∧ (columns ≤ e → MIN columns e = columns) := by
  refine ⟨fun hend => ⟨?_, ?_⟩, fun hend => ?_, (MIN_clamp hc he1).2.2, fun h => ?_⟩
  · simp only [crc_gentable_sameendian, hend]
    exact table_rows_shape _ e columns fuel he1 (table_end_lt _ _ hend) hc hfuel
  · simp only [crc_gentable_diffendian, hend]
    exact table_rows_shape _ e columns fuel he1 (table_end_lt _ _ hend) hc hfuel
  · have he := table_end8_le _ _ hend
    simp only [crc_gentable_8, hend]
    rw [table_loop8_start _ _ e columns fuel he1 he hc (fun _ _ => rfl)]
    exact table_rows_shape _ e columns fuel he1 (by omega) hc hfuel
  · unfold MIN; split <;> omega

/-- C11 (witness): `table_bits = 3`, so 8 entries, in 3 columns. -/
theorem gentable_rows_shape_witness :
    (1 ≤ 7 ∧ 1 ≤ 3 ∧ 7 < 8 ∧ table_end 3 = some 7 ∧ table_end8 3 = some 7) ∧
    (∃ rows last, crc_gentable_sameendian 8 false 0x107 8 3 3 = some rows ∧
      rows.getLast? = some last ∧ last.length = last_row_length (7 + 1) (MIN 3 7) ∧
      ∀ row ∈ rows, row.length ≤ MIN 3 7) ∧
    (∃ rows last, crc_gentable_8 8 0x107 8 3 3 = some rows ∧
      rows.getLast? = some last ∧ last.length = last_row_length (7 + 1) (MIN 3 7) ∧
      ∀ row ∈ rows, row.length ≤ MIN 3 7) :=
  ⟨by decide,
    ((gentable_rows_shape 8 false 0x107 8 3 3 7 (by decide) (by decide) (by decide)).1
      (by decide)).1,
    (gentable_rows_shape 8 false 0x107 8 3 3 7 (by decide) (by decide) (by decide)).2.1
      (by decide)⟩

/-- C12 (evaluation at the failing input). For `table_bits = 40` the bound
`(1 << (table_bits & 63)) - 1 - (table_bits > 63)` shifts the `int` 1 by 40 and has
no defined value; so for every `table_bits` from 31 to 63. The bound is
`2 ^ table_bits - 1` for `table_bits` from 1 to 30 and for 64. -/
theorem table_end_40_undefined :
    table_end 40 = none ∧ int_shl 1 (40 &&& 63) = none ∧
      (∀ table_bits, 31 ≤ table_bits → table_bits ≤ 63 → table_end table_bits = none) ∧
      (∀ table_bits, 1 ≤ table_bits → table_bits ≤ 30 →
        table_end table_bits = some (2 ^ table_bits - 1)) ∧
      table_end 64 = some (2 ^ 64 - 1) := by
  refine ⟨by decide, by decide, fun tb h1 h2 => (table_end_values tb).2.1 h1 h2,
    fun tb h1 h2 => (table_end_values tb).1 h1 h2, (table_end_values 0).2.2⟩

/-- C13 (evaluation at the failing input). The `byteswap64` of the source maps 256,
whose bytes from the least significant are `00 01 00 00 00 00 00 00`, to 0: the
message `crc_gentable_diffendian` feeds for index 256, reached with
`table_bits = 9`, is eight zero bytes, not the reversed bytes. The masks `0xFF0000`
stand where `0xFF000000` and `0xFF00` belong: `0x0102030405060708` is mapped to
`0x0E00060006070201`, not to `0x0807060504030201`. -/
theorem byteswap64_256 :
    byteswap64 256 = 0 ∧
      native_bytes false 256 = [0, 1, 0, 0, 0, 0, 0, 0] ∧
      native_bytes false (byteswap64 256) = [0, 0, 0, 0, 0, 0, 0, 0] ∧
      (native_bytes false 256).reverse = [0, 0, 0, 0, 0, 0, 1, 0] ∧
      table_end 9 = some 511 ∧
      byteswap64 0x0102030405060708 = 0x0E00060006070201 := by
  decide!

/-- C14 (counterexample). On a little-endian host, with the polynomial `0x107` of
width 8, `table_bits = 1` and 8 columns, `crc_gentable_8` emits `0x07` for index 1,
the CRC of the byte `01`, and `crc_gentable_sameendian` emits `0x13`, the CRC of
the eight bytes `01 00 00 00 00 00 00 00`. -/
theorem gentable_8_cex :
    crc_gentable_8 2 0x107 8 1 8 = some [[some 0], [some 0x07]] ∧
      crc_gentable_sameendian 2 false 0x107 8 1 8 = some [[some 0], [some 0x13]] ∧
      crc_iter [1] 0x107 8 = some 0x07 ∧
      crc_iter [1, 0, 0, 0, 0, 0, 0, 0] 0x107 8 = some 0x13 := by
  decide!

/-- C14 (amended). For every polynomial, every width up to 48, every `table_bits`
from 1 to 8 and every `columns ≥ 1`, `crc_gentable_8` emits the same rows with the
same entry values in the same order as `crc_gentable_sameendian` on a big-endian
host and as `crc_gentable_diffendian` on a little-endian host, whatever the fuel;
with `2 ^ table_bits` units of fuel it stops, its entries are `crc_iter` on the
single byte `i` for `i = 0, ..., 2 ^ table_bits - 1`, and every entry has a value,
below 256. -/
theorem gentable_8_eq (fuel poly poly_bits table_bits columns : Nat)
    (h1 : 1 ≤ table_bits) (h8 : table_bits ≤ 8) (hc : 1 ≤ columns) (hw : poly_bits ≤ 48) :
    crc_gentable_8 fuel poly poly_bits table_bits columns
      = crc_gentable_sameendian fuel true poly poly_bits table_bits columns ∧
    crc_gentable_8 fuel poly poly_bits table_bits columns
      = crc_gentable_diffendian fuel false poly poly_bits table_bits columns ∧
    (2 ^ table_bits ≤ fuel →
      ∃ rows, crc_gentable_8 fuel poly poly_bits table_bits columns = some rows ∧
        rows.flatten = (List.range (2 ^ table_bits)).map (fun i =>
          crc_iter [byte_of i] poly poly_bits) ∧
        ∀ entry ∈ rows.flatten, ∃ v, entry = some v ∧ v < 256) := by
  obtain ⟨he8, he, hpos, h255⟩ := table_end8_eq table_bits h1 h8
  have hsucc : 2 ^ table_bits - 1 + 1 = 2 ^ table_bits := by omega
  simp only [crc_gentable_8, crc_gentable_sameendian, crc_gentable_diffendian, he8, he]
  refine ⟨?_, ?_, fun hfuel => ?_⟩
  · exact table_loop8_start _ _ _ columns fuel hpos h255 hc
      (fun i hi => (crc_iter_single_byte i poly poly_bits (by omega) (by omega)).1)
  · exact table_loop8_start _ _ _ columns fuel hpos h255 hc
      (fun i hi => (crc_iter_single_byte i poly poly_bits (by omega) (by omega)).2)
  · rw [table_loop8_start _ (fun i => crc_iter [byte_of i] poly poly_bits) _ columns fuel
      hpos h255 hc (fun _ _ => rfl)]
    obtain ⟨rows, hr, hflat, _⟩ := table_loop_enumerates
      (fun i => crc_iter [byte_of i] poly poly_bits) (2 ^ table_bits - 1) columns fuel
      hpos (by omega) hc (by omega)
    rw [hsucc] at hflat
    refine ⟨rows, hr, hflat, fun entry hentry => ?_⟩
    rw [hflat] at hentry
    obtain ⟨i, _, rfl⟩ := List.mem_map.1 hentry
    rw [crc_iter, if_pos hw, crc_iter_sub48, if_pos hw]
    exact ⟨_, rfl, Nat.mod_lt _ (by decide)⟩

/-- C14 (witness): the polynomial `0x107` of width 8, a table of 8 bits in 8
columns, 256 units of fuel. -/
theorem gentable_8_eq_witness :
    (1 ≤ 8 ∧ 8 ≤ 8 ∧ 1 ≤ 8 ∧ 8 ≤ 48 ∧ 2 ^ 8 ≤ 256) ∧
    crc_gentable_8 256 0x107 8 8 8 = crc_gentable_sameendian 256 true 0x107 8 8 8 ∧
    crc_gentable_8 256 0x107 8 8 8 = crc_gentable_diffendian 256 false 0x107 8 8 8 ∧
    (∃ rows, crc_gentable_8 256 0x107 8 8 8 = some rows ∧
      rows.flatten = (List.range (2 ^ 8)).map (fun i => crc_iter [byte_of i] 0x107 8) ∧
      ∀ entry ∈ rows.flatten, ∃ v, entry = some v ∧ v < 256) :=
  ⟨by decide, (gentable_8_eq 256 0x107 8 8 8 (by decide) (by decide) (by decide) (by decide)).1,
    (gentable_8_eq 256 0x107 8 8 8 (by decide) (by decide) (by decide) (by decide)).2.1,
    (gentable_8_eq 256 0x107 8 8 8 (by decide) (by decide) (by decide) (by decide)).2.2
      (by decide)⟩

/-- C15 (evaluation at the failing input). For width 49, the polynomial
`2 ^ 49 + 0x1B` and the bytes `00 00 80 00 00 00 00`, the preload of the wide path
shifts an `int` by 40: `crc_iter` has no defined value and no step runs on a
defined register. On the register `0xFFFFFFFF80000000`, above the 49-bit window,
the mask `-(rem >> 48)` is `0xFFFFFFFFFFFF0001`, neither all ones nor zero; the
masked step and the conditional step differ on it, and so do the rest of the wide
path with the masked step (`0x48000000000`) and with the conditional step
(`0x4800000C300`) when run from it on the last message byte. The mask is the
conditional exclusive-or on the narrow path, for every message, every width up to
48 and every polynomial in full form, and on the wide path wherever the register
is within the `w`-bit window: on every register reached where the preload has a
value, for every width from 2 to 64. -/
theorem wide_mask_not_conditional_49 :
    (crc_iter [0, 0, 0x80, 0, 0, 0, 0] 0x200000000001B 49 = none ∧
      wide_states [0, 0, 0x80, 0, 0, 0, 0] 0x200000000001B 49 = none ∧
      int_shl 0 ((49 &&& 0xF8) - (0 + 1) * 8) = none) ∧
    (neg64 (0xFFFFFFFF80000000 >>> (49 - 1)) = 0xFFFFFFFFFFFF0001 ∧
      wide_step 0x200000000001B 49 0xFFFFFFFF80000000 0 = 0xFFFDFFFF00000001 ∧
      wide_step_cond 0x200000000001B 49 0xFFFFFFFF80000000 0 = 0xFFFDFFFF0000001B ∧
      (wide_flush_step 0x200000000001B 49)^[49]
        (([0] : List Byte).foldl (wide_byte 0x200000000001B 49) 0xFFFFFFFF80000000)
        = 0x48000000000 ∧
      (fun rem => wide_step_cond 0x200000000001B 49 rem 0)^[49]
        (([0] : List Byte).foldl
          (fun rem b => (List.range 8).foldl
            (fun rem j => wide_step_cond 0x200000000001B 49 rem ((b.val >>> (7 - j)) &&& 1)) rem)
          0xFFFFFFFF80000000)
        = 0x4800000C300) ∧
    (∀ (message : List Byte) (poly w : Nat), w ≤ 48 → 2 ^ w ≤ poly → poly < 2 ^ (w + 1) →
      (∀ r ∈ sub48_states message poly w,
        neg64 (r >>> (w + 8 - 1)) = if r.testBit (w + 7) then 2 ^ 64 - 1 else 0) ∧
      crc_iter_sub48 message poly w = crc_iter_sub48_cond message poly w) ∧
    (∀ (message : List Byte) (poly w : Nat), 2 ≤ w → w ≤ 64 →
      (if w < 64 then 2 ^ w ≤ poly ∧ poly < 2 ^ (w + 1) else poly < 2 ^ 64) →
      (∀ states, wide_states message poly w = some states → ∀ r ∈ states,
        neg64 (r >>> (w - 1)) = if r.testBit (w - 1) then 2 ^ 64 - 1 else 0) ∧
      crc_iter_wide message poly w = crc_iter_wide_cond message poly w ∧
      ∀ r bit, r < 2 ^ w → bit ≤ 1 →
        (neg64 (r >>> (w - 1)) = if r.testBit (w - 1) then 2 ^ 64 - 1 else 0) ∧
        wide_step poly w r bit = wide_step_cond poly w r bit ∧
        wide_step poly w r bit < 2 ^ w) := by
  refine ⟨by decide!, by decide!, fun message poly w h48 hp1 hp2 => ?_,
    fun message poly w h2 hw hp => ?_⟩
  · refine ⟨fun r hr => ?_, crc_iter_sub48_cond_eq h48 hp1 hp2 message⟩
    have hlt := sub48_states_lt h48 hp1 hp2 message r hr
    rw [show w + 8 - 1 = w + 7 by omega]
    exact mask_eq hlt
  · have hp64 : poly < 2 ^ 64 := by
      split at hp
      · exact lt_of_lt_of_le hp.2 (Nat.pow_le_pow_right (by decide) (by omega))
      · exact hp
    refine ⟨fun states hs r hr => ?_, crc_iter_wide_cond_eq (by omega) hw hp message,
      fun r bit hr hbit => ⟨mask_eq (by rwa [show w - 1 + 1 = w by omega]),
        wide_step_cond_eq bit hp64 (by omega) hr, wide_step_lt (by omega) hw hp hr hbit⟩⟩
    have hlt := wide_states_lt (by omega) hw hp message states hs r hr
    exact mask_eq (by rwa [show w - 1 + 1 = w by omega])

/-- C16 (evaluation at the failing input). For width 64 and the eight bytes
`01 00 00 00 00 00 00 00` the preload of `crc_iter` shifts an `int` by 56 and the
call has no defined value; the naive variant returns `0x6E4D3E593561EE88`. On
"123456789" with `0x11021` and width 16, where the preload shifts by 8 and 0, the
wide path does return the value of the naive variant. -/
theorem crc_iter_preload_undefined_naive :
    crc_iter [1, 0, 0, 0, 0, 0, 0, 0] 0x42F0E1EBA9EA3693 64 = none ∧
      crc_iter_naive [1, 0, 0, 0, 0, 0, 0, 0] 0x42F0E1EBA9EA3693 64 = 0x6E4D3E593561EE88 ∧
      crc_iter_wide check_message 0x11021 16
        = some (crc_iter_naive check_message 0x11021 16) := by
  decide!

/-- C18. Iteration-bound safety: for every `end` from 1 to `2 ^ 64 - 1`, every
clamped `columns` with `1 ≤ columns ≤ end` and every counter `num` that is the
initial `2 ^ 64 - 1` (standing for `-1`) or is below `end`, the row bound
`MIN(end - columns + 1, num + 1) + columns - 1` in wrapping 64-bit arithmetic is
`min(end, num + columns)` over the integers; it does not exceed `end` and is
strictly greater than the previous index. -/
theorem row_max_safe (e columns num : Nat) (he1 : 1 ≤ e) (he : e < 2 ^ 64)
    (hc1 : 1 ≤ columns) (hc : columns ≤ e) (hnum : num = 2 ^ 64 - 1 ∨ num < e) :
    (row_max e columns num : Int) = min (e : Int) (counter_int num + columns) ∧
      row_max e columns num ≤ e ∧ counter_int num < row_max e columns num := by
  have hcur : (add64 num 1 : Int) = counter_int num + 1 ∧ add64 num 1 ≤ e := by
    rcases hnum with h | h
    · subst h
      have : add64 (2 ^ 64 - 1) 1 = 0 := by decide
      rw [this]; simp [counter_int]
    · have h1 : add64 num 1 = num + 1 := by
        rw [add64, Nat.mod_eq_of_lt (by omega)]
      have h2 : counter_int num = num := by
        rw [counter_int, if_neg (by omega)]
      rw [h1, h2]; constructor
      · push_cast; ring
      · omega
  obtain ⟨hci, hle⟩ := hcur
  rw [row_max_eq hc1 hc he hle num rfl]
  split_ifs with h
  · refine ⟨?_, le_refl _, ?_⟩
    · rw [min_eq_left]; omega
    · omega
  · refine ⟨?_, by omega, ?_⟩
    · rw [min_eq_right (by omega)]; omega
    · omega

/-- C18 (witness): the first row of a table of 8 bits in 8 columns. -/
theorem row_max_safe_witness :
    (1 ≤ 255 ∧ 255 < 2 ^ 64 ∧ 1 ≤ 8 ∧ 8 ≤ 255 ∧ (2 ^ 64 - 1 = 2 ^ 64 - 1 ∨ 2 ^ 64 - 1 < 255)) ∧
    (row_max 255 8 (2 ^ 64 - 1) : Int) = min (255 : Int) (counter_int (2 ^ 64 - 1) + 8) ∧
      row_max 255 8 (2 ^ 64 - 1) ≤ 255 ∧
      counter_int (2 ^ 64 - 1) < row_max 255 8 (2 ^ 64 - 1) :=
  ⟨by decide, row_max_safe 255 8 (2 ^ 64 - 1) (by decide) (by decide) (by decide) (by decide)
    (Or.inl rfl)⟩

/-- C19. For every message and every generator in full form of degree `w` up to 48
(so from 1 to 48): every register on which `crc_iter_sub48` runs a division step
is below `2 ^ (w + 8)` and so is the register after the step; the returned value
is the low 8 bits of the remainder of `M(x) * x ^ 8` divided by the generator, and
is below 256. -/
theorem sub48_low_byte_of_remainder (message : List Byte) (g w : Nat)
    (hw : w ≤ 48) (hg1 : 2 ^ w ≤ g) (hg2 : g < 2 ^ (w + 1)) :
    (∀ r ∈ sub48_states message g w,
      r < 2 ^ (w + 8) ∧ sub48_step (shl64 g 8) w r < 2 ^ (w + 8)) ∧
    sub48_register message g w < 2 ^ (w + 8) ∧
    crc_iter_sub48 message g w = some (spec_rem8 message g w % 2 ^ 8) ∧
    spec_rem8 message g w < 2 ^ w ∧
    spec_rem8 message g w % 2 ^ 8 < 256 := by
  refine ⟨fun r hr => ?_, sub48_register_lt message hw hg1 hg2,
    crc_iter_sub48_eq hw hg1 hg2 message, ?_, Nat.mod_lt _ (by decide)⟩
  · have h := sub48_states_lt hw hg1 hg2 message r hr
    exact ⟨h, sub48_step_lt hw hg1 hg2 h⟩
  · have h := sub48_register_lt message hw hg1 hg2
    rw [sub48_register_eq hw hg1 hg2, Nat.shiftLeft_eq, pow_add] at h
    exact Nat.lt_of_mul_lt_mul_right h

/-- C19 (witness): "123456789" with the generator `0x11021` of degree 16. -/
theorem sub48_low_byte_of_remainder_witness :
    (16 ≤ 48 ∧ 2 ^ 16 ≤ 0x11021 ∧ 0x11021 < 2 ^ (16 + 1)) ∧
    (∀ r ∈ sub48_states check_message 0x11021 16,
      r < 2 ^ (16 + 8) ∧ sub48_step (shl64 0x11021 8) 16 r < 2 ^ (16 + 8)) ∧
    sub48_register check_message 0x11021 16 < 2 ^ (16 + 8) ∧
    crc_iter_sub48 check_message 0x11021 16
      = some (spec_rem8 check_message 0x11021 16 % 2 ^ 8) ∧
    spec_rem8 check_message 0x11021 16 < 2 ^ 16 ∧
    spec_rem8 check_message 0x11021 16 % 2 ^ 8 < 256 :=
  ⟨by decide, sub48_low_byte_of_remainder check_message 0x11021 16 (by decide) (by decide)
    (by decide)⟩

/-- C20. The narrow path is linear for the exclusive-or: for every polynomial in
full form of width up to 48 and every two messages of equal length,
`crc_iter_sub48` of their bytewise exclusive-or is the exclusive-or of their
`crc_iter_sub48`. -/
theorem crc_iter_sub48_xor (a b : List Byte) (g w : Nat) (hw : w ≤ 48)
    (hg1 : 2 ^ w ≤ g) (hg2 : g < 2 ^ (w + 1)) (hlen : a.length = b.length) :
    ∃ ra rb, crc_iter_sub48 a g w = some ra ∧ crc_iter_sub48 b g w = some rb ∧
      crc_iter_sub48 (message_xor a b) g w = some (ra ^^^ rb) := by
  refine ⟨_, _, crc_iter_sub48_eq hw hg1 hg2 a, crc_iter_sub48_eq hw hg1 hg2 b, ?_⟩
  rw [crc_iter_sub48_eq hw hg1 hg2, spec_rem8_xor a b g w hlen, xor_mod_two_pow]

/-- C20 (witness): two messages of 2 bytes with the generator `0x11021`. -/
theorem crc_iter_sub48_xor_witness :
    (16 ≤ 48 ∧ 2 ^ 16 ≤ 0x11021 ∧ 0x11021 < 2 ^ (16 + 1) ∧
      ([0x31, 0x32] : List Byte).length = ([0xF0, 0x0F] : List Byte).length) ∧
    ∃ ra rb, crc_iter_sub48 [0x31, 0x32] 0x11021 16 = some ra ∧
      crc_iter_sub48 [0xF0, 0x0F] 0x11021 16 = some rb ∧
      crc_iter_sub48 (message_xor [0x31, 0x32] [0xF0, 0x0F]) 0x11021 16 = some (ra ^^^ rb) :=
  ⟨by decide, crc_iter_sub48_xor [0x31, 0x32] [0xF0, 0x0F] 0x11021 16 (by decide) (by decide)
    (by decide) rfl⟩

end CrcKit
